import Mathlib

/-!
Verification of the fuzzy reconciliation core of `Gaeltec2.0.py`
(`preprocess_string`, `find_best_match`, `merge_with_pid_fuzzy`) against its
natural-language specification.  Tabular data is modelled shallowly: a cell
is missing (NaN), a string, or an exact number; a row is the association
list of its columns; a DataFrame is its ordered column names plus its rows.
Numbers are exact fractions compared by cross-multiplication (the source
computes with Python floats; every value the claims touch is an exact small
fraction).  Streamlit display calls are not modelled except for the two
`st.warning` diagnostics (observable per the spec) and the points where the
code can raise a Python exception, which are modelled with `Except`.
-/

namespace Gaeltec

/-- An exact fraction `num/den`, compared by cross-multiplication.  Every
number the reconciler computes (similarity scores `200·lcs/(len₁+len₂)`,
thresholds, fill values) is such a fraction with a positive denominator. -/
structure Frac where
  num : Int
  den : Nat
deriving DecidableEq, Repr

instance : OfNat Frac n := ⟨⟨n, 1⟩⟩

instance : ToString Frac := ⟨fun f => toString f.num ++ "/" ++ toString f.den⟩

/-- `a/b ≤ c/d` by cross-multiplication (the denominators of interest are
positive). -/
def Frac.le (a b : Frac) : Prop := a.num * (b.den : Int) ≤ b.num * (a.den : Int)

/-- `a/b < c/d` by cross-multiplication. -/
def Frac.lt (a b : Frac) : Prop := a.num * (b.den : Int) < b.num * (a.den : Int)

instance : LE Frac := ⟨Frac.le⟩

instance : LT Frac := ⟨Frac.lt⟩

instance (a b : Frac) : Decidable (a ≤ b) := Int.decLe _ _

instance (a b : Frac) : Decidable (a < b) := Int.decLt _ _

/-- A cell of a tabular value: missing (NaN/None), a string, or a number. -/
inductive Cell where
  | na : Cell
  | str (s : String) : Cell
  | num (q : Frac) : Cell
deriving DecidableEq, Repr

/-- A row, modelling a pandas Series obtained from a DataFrame row: the
association list of (column name, cell) in column order. -/
abbrev Row := List (String × Cell)

/-- A tabular value, modelling a pandas DataFrame: ordered column names and
rows. -/
structure DF where
  cols : List String
  rows : List Row
deriving DecidableEq, Repr

/-- Reading one cell of a row; a column the row does not carry reads as NaN. -/
def getCell : Row → String → Cell
  | [], _ => .na
  | (c', v) :: r, c => if c' = c then v else getCell r c

/-- Writing one cell of a row: overwrite in place, or append the new column
at the end, exactly as assignment into a pandas Series does. -/
def setCell : Row → String → Cell → Row
  | [], c, v => [(c, v)]
  | (c', v') :: r, c, v => if c' = c then (c', v) :: r else (c', v') :: setCell r c v

/-- The column names of a row, in order (the Series index). -/
def rowKeys (r : Row) : List String := r.map Prod.fst

/-- pandas elementwise equality (`==`): NaN compares unequal to everything,
NaN itself included; values of different kinds compare unequal; numbers
compare by value. -/
def cellEq : Cell → Cell → Bool
  | .str a, .str b => a == b
  | .num a, .num b => a.num * (b.den : Int) == b.num * (a.den : Int)
  | _, _ => false

/-- Python truthiness of a best-match value (`if best_match and ...`): the
empty string and 0 are falsy. -/
def truthyCell : Cell → Bool
  | .na => false
  | .str s => s ≠ ""
  | .num q => q.num ≠ 0

/-- Whether a cell holds a string. -/
def Cell.isStr : Cell → Bool
  | .str _ => true
  | _ => false

/-- Accumulator loop of `firstDedup`: keep elements not seen before. -/
def firstDedupGo [DecidableEq α] : List α → List α → List α
  | _, [] => []
  | seen, a :: l =>
    if a ∈ seen then firstDedupGo seen l else a :: firstDedupGo (a :: seen) l

/-- Keep the first occurrence of each value, in order: the semantics of
pandas `Series.unique` and `DataFrame.drop_duplicates` (which, unlike
elementwise `==`, treat missing values as duplicates of each other, hence
plain decidable equality here). -/
def firstDedup [DecidableEq α] (l : List α) : List α := firstDedupGo [] l

/-- ASCII whitespace, as matched by the regex class `\s` (the data of
interest is ASCII; Python's `\s` additionally matches some Unicode spaces). -/
def isSpaceChar (c : Char) : Bool :=
  c == ' ' || c == '\t' || c == '\n' || c == '\r' || c == '\x0b' || c == '\x0c'

/-- A regex word character `\w`: alphanumeric or underscore. -/
def isWordChar (c : Char) : Bool :=
  c.isAlphanum || c == '_'

/-- Python `str.strip()`: drop leading and trailing whitespace. -/
def stripWS (l : List Char) : List Char :=
  ((l.dropWhile isSpaceChar).reverse.dropWhile isSpaceChar).reverse

/-- The regex substitution `re.sub(r'\s+', ' ', ·)`: every maximal run of
whitespace becomes a single space (of a run, only the last character is
kept, rewritten to a plain space). -/
def collapseWS : List Char → List Char
  | [] => []
  | [c] => if isSpaceChar c then [' '] else [c]
  | c1 :: c2 :: cs =>
    if isSpaceChar c1 && isSpaceChar c2 then collapseWS (c2 :: cs)
    else (if isSpaceChar c1 then ' ' else c1) :: collapseWS (c2 :: cs)

/-- The normalization pipeline of `preprocess_string` on an actual string:
lowercase, strip, collapse whitespace runs (`re.sub(r'\s+', ' ', ·)`), then
delete every character that is neither a word character nor whitespace
(`re.sub(r'[^\w\s]', '', ·)`). -/
def normalizeChars (s : String) : String :=
  String.mk ((collapseWS (stripWS (s.toList.map Char.toLower))).filter
    (fun c => isWordChar c || isSpaceChar c))

/-- `preprocess_string` from the source: NaN normalizes to the empty string,
anything else is stringified (`str(text)`) and normalized.  (Numeric cells
are rendered via `toString`; the exact digits of Python float formatting are
immaterial to every claim.) -/
def preprocess_string (t : Cell) : String :=
  match t with
  | .na => ""
  | .str s => normalizeChars s
  | .num q => normalizeChars (toString q)

/-- Longest-common-subsequence length with explicit fuel (the fuel
`|x| + |y|` always suffices); the basis of the indel edit distance used by
the rapidfuzz `ratio` metric (`dist = |x| + |y| - 2·lcs`). -/
def lcsLenF : Nat → List Char → List Char → Nat
  | 0, _, _ => 0
  | _ + 1, [], _ => 0
  | _ + 1, _ :: _, [] => 0
  | f + 1, a :: x, b :: y =>
    if a = b then lcsLenF f x y + 1
    else
      let m1 := lcsLenF f x (b :: y)
      let m2 := lcsLenF f (a :: x) y
      if m1 ≤ m2 then m2 else m1

/-- Longest common subsequence length. -/
def lcsLen (x y : List Char) : Nat := lcsLenF (x.length + y.length) x y

/-- rapidfuzz `fuzz.ratio` as an exact fraction: `100·(1 − dist/(|x|+|y|))`
with the indel distance, i.e. `200·lcs/(|x|+|y|)`; two empty strings score
100. -/
def ratioF (x y : List Char) : Frac :=
  if x.length + y.length = 0 then 100
  else ⟨200 * (lcsLen x y : Int), x.length + y.length⟩

/-- All contiguous substrings of a list (with repetitions; only the maximum
below matters). -/
def subLists (l : List Char) : List (List Char) :=
  (List.range (l.length + 1)).flatMap
    (fun i => (List.range (l.length + 1)).map (fun n => (l.drop i).take n))

/-- The larger of two fractions. -/
def fracMax (a b : Frac) : Frac := if a ≤ b then b else a

/-- Modelled from the spec: the similarity metric `fuzz.partial_ratio` of
the rapidfuzz library, which is external to this repository and is therefore
modelled from the specification's description — "a partial/substring-tolerant
fuzzy string metric (0–100 scale)", "tolerant of one string being a
substring/variant of the other". It is the best `ratioF` of the shorter
string against the contiguous substrings of the longer one; per the
library's documented edge case, two empty strings score 100 and exactly one
empty string scores 0. -/
def fuzzPartialRatio (a b : String) : Frac :=
  let x := a.toList
  let y := b.toList
  if x.length = 0 ∨ y.length = 0 then (if x.length = y.length then 100 else 0)
  else
    let sh := if x.length ≤ y.length then x else y
    let lo := if x.length ≤ y.length then y else x
    ((subLists lo).map (fun t => ratioF sh t)).foldl fracMax 0

/-- The candidate scan of `find_best_match`: walk the candidates in order,
skip NaN entries, score each against the target on preprocessed strings, and
record a candidate only when its score strictly beats the best so far and
reaches the threshold. -/
def fbmLoop (target : Cell) (th : Frac) : List Cell → Option Cell → Frac → Option Cell × Frac
  | [], bm, bs => (bm, bs)
  | c :: cs, bm, bs =>
    if c = .na then fbmLoop target th cs bm bs
    else
      if bs < fuzzPartialRatio (preprocess_string target) (preprocess_string c) ∧
          th ≤ fuzzPartialRatio (preprocess_string target) (preprocess_string c) then
        fbmLoop target th cs (some c)
          (fuzzPartialRatio (preprocess_string target) (preprocess_string c))
      else fbmLoop target th cs bm bs

/-- `find_best_match` from the source: a NaN target or an empty candidate
list yields `(None, 0)`; otherwise the scan above. -/
def find_best_match (target : Cell) (candidates : List Cell) (threshold : Frac) :
    Option Cell × Frac :=
  if target = .na then (none, 0)
  else if candidates.isEmpty then (none, 0)
  else fbmLoop target threshold candidates none 0

/-- The columns `merge_with_pid_fuzzy` requires of the aggregated table. -/
def requiredAggCols : List String := ["project", "shire", "segmentdesc"]

/-- The columns `merge_with_pid_fuzzy` requires of the PID (reference) table. -/
def requiredPidCols : List String :=
  ["project", "shire", "project_description", "pid_ohl_nr"]

/-- The (project, shire) key of a row. -/
def keyOf (r : Row) : Cell × Cell := (getCell r "project", getCell r "shire")

/-- `agg_df[(agg_df.project == p) & (agg_df.shire == s)]`: the aggregated
rows of one key partition, with pandas `==` (so a NaN key matches nothing). -/
def aggSubFor (agg : DF) (k : Cell × Cell) : List Row :=
  agg.rows.filter
    (fun r => cellEq (getCell r "project") k.1 && cellEq (getCell r "shire") k.2)

/-- The PID rows of one key partition, with pandas `==`. -/
def pidSubFor (pid : DF) (k : Cell × Cell) : List Row :=
  pid.rows.filter
    (fun r => cellEq (getCell r "project") k.1 && cellEq (getCell r "shire") k.2)

/-- `pid_subset['project_description'].dropna().unique()`: the candidate
descriptions of one key partition. -/
def candsFor (pid : DF) (k : Cell × Cell) : List Cell :=
  firstDedup (((pidSubFor pid k).map (fun r => getCell r "project_description")).filter
    (fun c => decide (c ≠ Cell.na)))

/-- One appended `pd.DataFrame`: its column names and its rows. -/
abbrev Frame := List String × List Row

/-- One iteration of `for col in pid_subset.columns: if col not in
new_row.index and col not in ['project', 'shire']: new_row[col] = ...`. -/
def pidColStep (mpr : Row) (row : Row) (c : String) : Row :=
  if c ∈ rowKeys row ∨ c = "project" ∨ c = "shire" then row
  else setCell row c (getCell mpr c)

/-- The matched branch of the row loop: copy the aggregated row, set the
four new fields, then append every other PID column the row does not already
carry (`project`/`shire` excluded). -/
def enrichRow (pidCols : List String) (r mpr : Row) (m : Cell) (s : Frac) : Row :=
  pidCols.foldl (pidColStep mpr)
    (setCell (setCell (setCell (setCell r
      "matched_project_description" m)
      "match_score" (.num s))
      "pid_ohl_nr" (getCell mpr "pid_ohl_nr"))
      "project_description" m)

/-- One iteration of the row loop of `merge_with_pid_fuzzy`: a NaN
description keeps the row; otherwise fuzzy-match, and on acceptance
(truthy best match and score ≥ 75) enrich from the first PID row whose
description equals the best match (`.iloc[0]`, an IndexError if none —
provably unreachable). -/
def processRow (pid : DF) (k : Cell × Cell) (r : Row) : Except String Frame :=
  if getCell r "segmentdesc" = .na then .ok (rowKeys r, [r])
  else
    match find_best_match (getCell r "segmentdesc") (candsFor pid k) 75 with
    | (some m, s) =>
      if truthyCell m ∧ 75 ≤ s then
        match (pidSubFor pid k).find?
            (fun pr => cellEq (getCell pr "project_description") m) with
        | some mpr =>
          .ok (rowKeys (enrichRow pid.cols r mpr m s), [enrichRow pid.cols r mpr m s])
        | none => .error "IndexError"
      else .ok (rowKeys r, [r])
    | (none, _) => .ok (rowKeys r, [r])

/-- Effectful map over a list, aborting at the first raised exception, as a
Python `for` loop does. -/
def exMapM (f : α → Except String β) : List α → Except String (List β)
  | [] => .ok []
  | a :: l =>
    match f a with
    | .error e => .error e
    | .ok b =>
      match exMapM f l with
      | .error e => .error e
      | .ok bs => .ok (b :: bs)

/-- One iteration of the key loop: a partition with no PID rows appends its
aggregated slice unchanged (one frame, carrying the aggregated columns);
otherwise one frame per aggregated row of the partition. -/
def processKey (agg pid : DF) (k : Cell × Cell) : Except String (List Frame) :=
  if (pidSubFor pid k).isEmpty then .ok [(agg.cols, aggSubFor agg k)]
  else exMapM (processRow pid k) (aggSubFor agg k)

/-- Column union of `pd.concat`: the first frame's columns, then every new
column in order of appearance. -/
def concatCols (frames : List Frame) : List String :=
  frames.foldl (fun acc f => acc ++ f.1.filter (fun c => decide (c ∉ acc))) []

/-- `df[col] = df[col].fillna(v)` on one row: replace a NaN (or absent)
cell by `v`, keep anything else. -/
def fillCol (col : String) (v : Cell) (r : Row) : Row :=
  setCell r col (if getCell r col = .na then v else getCell r col)

/-- The epilogue of `merge_with_pid_fuzzy`: the three `fillna` lines (each
raising a KeyError when the concatenated frame lacks the column) and the
`match_score >= 75` count (raising a TypeError when the column holds a
string). -/
def fillAndCount (cols : List String) (rs : List Row) : Except String DF :=
  if "matched_project_description" ∈ cols then
    if "match_score" ∈ cols then
      if "pid_ohl_nr" ∈ cols then
        if (((rs.map (fillCol "matched_project_description" (.str "No Match"))).map
              (fillCol "match_score" (.num 0))).map
              (fillCol "pid_ohl_nr" (.str "Not Available"))).any
            (fun r => (getCell r "match_score").isStr) then
          .error "TypeError"
        else
          .ok ⟨cols, ((rs.map (fillCol "matched_project_description" (.str "No Match"))).map
              (fillCol "match_score" (.num 0))).map
              (fillCol "pid_ohl_nr" (.str "Not Available"))⟩
      else .error "KeyError: pid_ohl_nr"
    else .error "KeyError: match_score"
  else .error "KeyError: matched_project_description"

/-- The matching body of `merge_with_pid_fuzzy` after the input checks:
iterate the deduplicated (project, shire) keys, concatenate all appended
frames, and run the epilogue (the `if matched_rows:` guard cannot fail with
a nonempty input but is modelled faithfully). -/
def mergeMain (agg pid : DF) : Except String DF :=
  match exMapM (processKey agg pid) (firstDedup (agg.rows.map keyOf)) with
  | .error e => .error e
  | .ok framess =>
    if framess.flatten.isEmpty then .ok agg
    else fillAndCount (concatCols framess.flatten)
      ((framess.flatten.map Prod.snd).flatten)

/-- An emitted `st.warning` diagnostic, carrying the missing column names it
reports. -/
inductive Diag where
  | missingAgg (cols : List String)
  | missingPid (cols : List String)
deriving DecidableEq, Repr

/-- `merge_with_pid_fuzzy` from the source: `None` PID data or an empty
aggregated table returns the aggregated table unchanged; a missing required
column (aggregated table checked first) emits one diagnostic and returns the
aggregated table unchanged; otherwise the matching body runs.  The result
pairs the emitted diagnostics with the returned table (or the raised
exception). -/
def merge_with_pid_fuzzy (agg : DF) (pidOpt : Option DF) :
    List Diag × Except String DF :=
  match pidOpt with
  | none => ([], .ok agg)
  | some pid =>
    if agg.rows.isEmpty || agg.cols.isEmpty then ([], .ok agg)
    else
      if requiredAggCols.filter (fun c => decide (c ∉ agg.cols)) ≠ [] then
        ([.missingAgg (requiredAggCols.filter (fun c => decide (c ∉ agg.cols)))], .ok agg)
      else if requiredPidCols.filter (fun c => decide (c ∉ pid.cols)) ≠ [] then
        ([.missingPid (requiredPidCols.filter (fun c => decide (c ∉ pid.cols)))], .ok agg)
      else ([], mergeMain agg pid)

/-- The four columns the matched branch writes. -/
def reservedCols : List String :=
  ["matched_project_description", "match_score", "pid_ohl_nr", "project_description"]

/-- Well-formedness of a table, automatic for real pandas data: every row
carries exactly the table's columns, in order. -/
abbrev WFRows (t : DF) : Prop := ∀ r ∈ t.rows, rowKeys r = t.cols

/-- The table does not already use the four output column names (the spec's
data model reserves them for the enrichment). -/
abbrev NoReserved (t : DF) : Prop := ∀ c ∈ reservedCols, c ∉ t.cols

/-- Key cells are identifier strings, as the spec's data model states
("project: identifier string", "region: identifier string"). -/
abbrev StrKeys (t : DF) : Prop :=
  ∀ r ∈ t.rows, (getCell r "project").isStr = true ∧ (getCell r "shire").isStr = true

/-- All required aggregated columns are present. -/
abbrev HasRequiredAgg (t : DF) : Prop := ∀ c ∈ requiredAggCols, c ∈ t.cols

/-- All required PID columns are present. -/
abbrev HasRequiredPid (t : DF) : Prop := ∀ c ∈ requiredPidCols, c ∈ t.cols

/-- The PID table carries exactly the required columns (no extras). -/
abbrev PidColsOnly (t : DF) : Prop := ∀ c ∈ t.cols, c ∈ requiredPidCols

/-- A "good" score: positive denominator and nonnegative numerator. -/
def GoodFrac (f : Frac) : Prop := 0 < f.den ∧ 0 ≤ f.num

/-- The final three `fillna` operations applied to one row, in order. -/
def fillAll (r : Row) : Row :=
  fillCol "pid_ohl_nr" (.str "Not Available")
    (fillCol "match_score" (.num 0)
      (fillCol "matched_project_description" (.str "No Match") r))

/-- `row` is the enrichment of aggregated row `r` produced in partition `k`:
the facts recorded by the accepting branch of the row loop. -/
def EnrichedFrom (pid : DF) (k : Cell × Cell) (r row : Row) : Prop :=
  ∃ m s mpr,
    getCell r "segmentdesc" ≠ .na ∧
    find_best_match (getCell r "segmentdesc") (candsFor pid k) 75 = (some m, s) ∧
    truthyCell m = true ∧ (75:Frac) ≤ s ∧
    (pidSubFor pid k).find? (fun pr => cellEq (getCell pr "project_description") m) =
      some mpr ∧
    row = enrichRow pid.cols r mpr m s

/-- Outcome of one `processRow` call. -/
def RowCase (pid : DF) (k : Cell × Cell) (r : Row) (fr : Frame) : Prop :=
  fr = (rowKeys r, [r]) ∨
  ∃ row, EnrichedFrom pid k r row ∧ fr = (rowKeys row, [row])

/-- Outcome of one `processKey` call. -/
def KeyCase (agg pid : DF) (k : Cell × Cell) (frs : List Frame) : Prop :=
  ((pidSubFor pid k).isEmpty = true ∧ frs = [(agg.cols, aggSubFor agg k)]) ∨
  ((pidSubFor pid k).isEmpty = false ∧
    List.Forall₂ (RowCase pid k) (aggSubFor agg k) frs)

/-- The cells of a row at the given columns, in order. -/
def projRow (cols : List String) (row : Row) : List Cell := cols.map (getCell row)

/- ### Concrete tables used to evaluate the merge on explicit inputs -/

/-- The aggregated columns, in source order. -/
def aggColsX : List String := ["project", "shire", "segmentdesc"]

/-- The PID columns, in source order. -/
def pidColsX : List String := ["project", "shire", "project_description", "pid_ohl_nr"]

/-- An aggregated row with the given project, shire and description cells. -/
def aggRowX (p s d : Cell) : Row := [("project", p), ("shire", s), ("segmentdesc", d)]

/-- A PID row with the given project, shire, description and id cells. -/
def pidRowX (p s d i : Cell) : Row :=
  [("project", p), ("shire", s), ("project_description", d), ("pid_ohl_nr", i)]

/-- One aggregated row whose description matches a PID row exactly. -/
def aggW : DF := ⟨aggColsX, [aggRowX (.str "P") (.str "S") (.str "ab")]⟩

/-- The PID table matching `aggW` with a non-null id. -/
def pidW : DF := ⟨pidColsX, [pidRowX (.str "P") (.str "S") (.str "ab") (.str "I")]⟩

/-- The single row of the merge output on `aggW` and `pidW`. -/
def rowW : Row :=
  [("project", .str "P"), ("shire", .str "S"), ("segmentdesc", .str "ab"),
   ("matched_project_description", .str "ab"),
   ("match_score", .num ⟨400, 4⟩),
   ("pid_ohl_nr", .str "I"),
   ("project_description", .str "ab")]

/-- The merge output on `aggW` and `pidW`. -/
def outW : DF :=
  ⟨["project", "shire", "segmentdesc", "matched_project_description",
    "match_score", "pid_ohl_nr", "project_description"],
   [[("project", .str "P"), ("shire", .str "S"), ("segmentdesc", .str "ab"),
     ("matched_project_description", .str "ab"),
     ("match_score", .num ⟨400, 4⟩),
     ("pid_ohl_nr", .str "I"),
     ("project_description", .str "ab")]]⟩

/-- Four aggregated rows: a null project on the second, and the two (P, S)
rows interleaved with a (Q, S) row. -/
def aggC1 : DF := ⟨aggColsX,
  [aggRowX (.str "P") (.str "S") (.str "ab"),
   aggRowX .na (.str "S") (.str "nn"),
   aggRowX (.str "Q") (.str "S") (.str "zz"),
   aggRowX (.str "P") (.str "S") (.str "cd")]⟩

/-- One PID row matching the (P, S) key. -/
def pidC1 : DF := ⟨pidColsX, [pidRowX (.str "P") (.str "S") (.str "ab") (.str "I")]⟩

/-- One aggregated row whose description matches a PID row exactly. -/
def aggC2 : DF := ⟨aggColsX, [aggRowX (.str "P") (.str "S") (.str "ab")]⟩

/-- The matching PID row carries a null `pid_ohl_nr`. -/
def pidC2 : DF := ⟨pidColsX, [pidRowX (.str "P") (.str "S") (.str "ab") .na]⟩

/-- One aggregated row whose description is far from every candidate. -/
def aggC4 : DF := ⟨aggColsX, [aggRowX (.str "P") (.str "S") (.str "ab")]⟩

/-- A PID row sharing the key but with a dissimilar description. -/
def pidC4 : DF := ⟨pidColsX, [pidRowX (.str "P") (.str "S") (.str "xy") (.str "I")]⟩

/-- An empty aggregated table missing two required columns. -/
def aggC5 : DF := ⟨["project"], []⟩

/-- A nonempty aggregated table missing two required columns. -/
def aggC5W : DF := ⟨["project"], [[("project", .str "P")]]⟩

/-- Two aggregated rows: one with a sub-threshold best candidate, one with
an exact match (so the merge returns instead of raising). -/
def aggC6 : DF := ⟨aggColsX,
  [aggRowX (.str "P") (.str "S") (.str "ab"),
   aggRowX (.str "Q") (.str "S") (.str "cd")]⟩

/-- PID rows for `aggC6`: "ba" scores 200/3 < 75 against "ab". -/
def pidC6 : DF := ⟨pidColsX,
  [pidRowX (.str "P") (.str "S") (.str "ba") (.str "I1"),
   pidRowX (.str "Q") (.str "S") (.str "cd") (.str "I2")]⟩

/-- One aggregated row whose description is the empty string. -/
def aggC7 : DF := ⟨aggColsX, [aggRowX (.str "P") (.str "S") (.str "")]⟩

/-- A PID row whose description normalizes to the empty string. -/
def pidC7 : DF := ⟨pidColsX, [pidRowX (.str "P") (.str "S") (.str "!!") (.str "ID")]⟩

/- ### Order lemmas for `Frac` -/

theorem fr_not_lt_of_le {a b : Frac} (h : a ≤ b) : ¬ b < a := by
  simp only [LE.le, LT.lt, Frac.le, Frac.lt] at *
  exact Int.not_lt.mpr h

theorem fr_le_of_le_of_lt {a b c : Frac} (hb : 0 < b.den) (h1 : a ≤ b) (h2 : b < c) :
    a ≤ c := by
  have hbd : (0:Int) < (b.den : Int) := by exact_mod_cast hb
  have hcd : (0:Int) ≤ (c.den : Int) := Int.natCast_nonneg _
  have had : (0:Int) ≤ (a.den : Int) := Int.natCast_nonneg _
  simp only [LE.le, LT.lt, Frac.le, Frac.lt] at h1 h2 ⊢
  have h1' := mul_le_mul_of_nonneg_right h1 hcd
  have h2' := mul_le_mul_of_nonneg_right (le_of_lt h2) had
  have key : a.num * (c.den:Int) * (b.den:Int) ≤ c.num * (a.den:Int) * (b.den:Int) := by
    ring_nf at h1' h2' ⊢
    linarith
  exact le_of_mul_le_mul_right key hbd

theorem fr_lt_of_lt_of_le {a b c : Frac} (hb : 0 < b.den) (hc : 0 < c.den)
    (h1 : a < b) (h2 : b ≤ c) : a < c := by
  have hbd : (0:Int) < (b.den : Int) := by exact_mod_cast hb
  have hcd : (0:Int) < (c.den : Int) := by exact_mod_cast hc
  have had : (0:Int) ≤ (a.den : Int) := Int.natCast_nonneg _
  simp only [LE.le, LT.lt, Frac.le, Frac.lt] at h1 h2 ⊢
  have h1' := mul_lt_mul_of_pos_right h1 hcd
  have h2' := mul_le_mul_of_nonneg_right h2 had
  have key : a.num * (c.den:Int) * (b.den:Int) < c.num * (a.den:Int) * (b.den:Int) := by
    ring_nf at h1' h2' ⊢
    linarith
  exact lt_of_mul_lt_mul_right key (le_of_lt hbd)

theorem fr_le_trans_mid {a b c : Frac} (hb : 0 < b.den) (h1 : a ≤ b) (h2 : b ≤ c) :
    a ≤ c := by
  have hbd : (0:Int) < (b.den : Int) := by exact_mod_cast hb
  have hcd : (0:Int) ≤ (c.den : Int) := Int.natCast_nonneg _
  have had : (0:Int) ≤ (a.den : Int) := Int.natCast_nonneg _
  simp only [LE.le, Frac.le] at h1 h2 ⊢
  have h1' := mul_le_mul_of_nonneg_right h1 hcd
  have h2' := mul_le_mul_of_nonneg_right h2 had
  have key : a.num * (c.den:Int) * (b.den:Int) ≤ c.num * (a.den:Int) * (b.den:Int) := by
    ring_nf at h1' h2' ⊢
    linarith
  exact le_of_mul_le_mul_right key hbd

/- ### Lemmas on rows and cells -/

theorem getCell_setCell_self (r : Row) (c : String) (v : Cell) :
    getCell (setCell r c v) c = v := by
  induction r with
  | nil => simp [setCell, getCell]
  | cons p r ih =>
    obtain ⟨c', v'⟩ := p
    by_cases h : c' = c
    · simp [setCell, h, getCell]
    · simp [setCell, h, getCell, ih]

theorem getCell_setCell_ne (r : Row) {c c' : String} (v : Cell) (h : c ≠ c') :
    getCell (setCell r c v) c' = getCell r c' := by
  induction r with
  | nil => simp [setCell, getCell, h]
  | cons p r ih =>
    obtain ⟨c'', v''⟩ := p
    by_cases h2 : c'' = c
    · simp [setCell, h2, getCell, h]
    · simp [setCell, h2, getCell, ih]

theorem rowKeys_setCell (r : Row) (c : String) (v : Cell) :
    rowKeys (setCell r c v) =
      if c ∈ rowKeys r then rowKeys r else rowKeys r ++ [c] := by
  induction r with
  | nil => simp [setCell, rowKeys]
  | cons p r ih =>
    obtain ⟨c', v'⟩ := p
    by_cases h : c' = c
    · subst h
      simp [setCell, rowKeys]
    · have hne : c ≠ c' := fun hh => h hh.symm
      simp only [setCell, if_neg h, rowKeys, List.map_cons] at ih ⊢
      rw [ih]
      by_cases hm : c ∈ List.map Prod.fst r
      · rw [if_pos hm, if_pos (List.mem_cons_of_mem _ hm)]
      · have hnm : c ∉ c' :: List.map Prod.fst r := by
          simp [List.mem_cons, hne, hm]
        rw [if_neg hm, if_neg hnm]
        simp

theorem mem_rowKeys_setCell (r : Row) (c c' : String) (v : Cell) :
    c' ∈ rowKeys (setCell r c v) ↔ c' ∈ rowKeys r ∨ c' = c := by
  rw [rowKeys_setCell]
  by_cases h : c ∈ rowKeys r
  · simp only [if_pos h]
    constructor
    · exact fun hh => Or.inl hh
    · rintro (hh | rfl)
      · exact hh
      · exact h
  · simp [if_neg h]

theorem getCell_eq_na_of_not_mem {r : Row} {c : String} (h : c ∉ rowKeys r) :
    getCell r c = .na := by
  induction r with
  | nil => simp [getCell]
  | cons p r ih =>
    obtain ⟨c', v'⟩ := p
    simp only [rowKeys, List.map_cons, List.mem_cons, not_or] at h
    have : c' ≠ c := fun hh => h.1 (hh.symm)
    simp only [getCell, if_neg this]
    exact ih (by simpa [rowKeys] using h.2)

theorem getCell_fillCol_self (col : String) (v : Cell) (r : Row) :
    getCell (fillCol col v r) col =
      if getCell r col = .na then v else getCell r col := by
  simp [fillCol, getCell_setCell_self]

theorem getCell_fillCol_ne (col : String) (v : Cell) (r : Row) {c : String}
    (h : col ≠ c) : getCell (fillCol col v r) c = getCell r c := by
  simp [fillCol, getCell_setCell_ne _ _ h]

theorem cellEq_na_right (x : Cell) : cellEq x .na = false := by
  cases x <;> rfl

theorem cellEq_na_left (x : Cell) : cellEq .na x = false := by
  cases x <;> rfl

theorem cellEq_self {x : Cell} (h : x ≠ .na) : cellEq x x = true := by
  cases x with
  | na => exact absurd rfl h
  | str s => simp [cellEq]
  | num q => simp [cellEq]

theorem cellEq_ne_na_left {x y : Cell} (h : cellEq x y = true) : x ≠ .na := by
  intro hx
  subst hx
  simp [cellEq] at h

theorem cellEq_ne_na_right {x y : Cell} (h : cellEq x y = true) : y ≠ .na := by
  intro hy
  subst hy
  rw [cellEq_na_right] at h
  exact Bool.false_ne_true h

theorem cellEq_str_right {x : Cell} {s : String} :
    cellEq x (.str s) = true ↔ x = .str s := by
  cases x with
  | na => simp [cellEq]
  | str a => simp [cellEq]
  | num q => simp [cellEq]

theorem isStr_cellEq_iff {x y : Cell} (hx : x.isStr = true) :
    cellEq y x = true ↔ y = x := by
  cases x with
  | na => simp [Cell.isStr] at hx
  | str s => exact cellEq_str_right
  | num q => simp [Cell.isStr] at hx

/- ### Lemmas on `firstDedup` -/

theorem mem_firstDedupGo [DecidableEq α] (l : List α) (x : α) :
    ∀ seen, x ∈ firstDedupGo seen l ↔ x ∈ l ∧ x ∉ seen := by
  induction l with
  | nil => intro seen; simp [firstDedupGo]
  | cons a t ih =>
    intro seen
    rw [firstDedupGo]
    by_cases h : a ∈ seen
    · rw [if_pos h, ih]
      constructor
      · rintro ⟨hx, hs⟩
        exact ⟨List.mem_cons_of_mem _ hx, hs⟩
      · rintro ⟨hx, hs⟩
        rcases List.mem_cons.mp hx with rfl | hx
        · exact absurd h hs
        · exact ⟨hx, hs⟩
    · rw [if_neg h]
      constructor
      · intro hx
        rcases List.mem_cons.mp hx with rfl | hx
        · exact ⟨List.mem_cons_self _ _, h⟩
        · have h2 := (ih (a :: seen)).mp hx
          refine ⟨List.mem_cons_of_mem _ h2.1, fun hs => h2.2 (List.mem_cons_of_mem _ hs)⟩
      · rintro ⟨hx, hs⟩
        rcases List.mem_cons.mp hx with rfl | hx
        · exact List.mem_cons_self _ _
        · by_cases hxa : x = a
          · subst hxa
            exact List.mem_cons_self _ _
          · refine List.mem_cons_of_mem _ ((ih (a :: seen)).mpr ⟨hx, ?_⟩)
            simp [List.mem_cons, hxa, hs]

theorem mem_firstDedup [DecidableEq α] (l : List α) (x : α) :
    x ∈ firstDedup l ↔ x ∈ l := by
  rw [firstDedup, mem_firstDedupGo]
  simp

theorem firstDedupGo_cons [DecidableEq α] (seen : List α) (a : α) (t : List α) :
    firstDedupGo seen (a :: t) =
      if a ∈ seen then firstDedupGo seen t else a :: firstDedupGo (a :: seen) t := rfl

theorem firstDedupGo_as_filter [DecidableEq α] (l : List α) :
    ∀ seen, firstDedupGo seen l = (firstDedup l).filter (fun b => decide (b ∉ seen)) := by
  induction l with
  | nil => intro seen; rfl
  | cons a t ih =>
    intro seen
    have hd : firstDedup (a :: t) =
        a :: (firstDedup t).filter (fun b => decide (b ∉ [a])) := by
      rw [firstDedup, firstDedupGo_cons, if_neg (List.not_mem_nil a), ih [a], firstDedup]
    rw [firstDedupGo_cons, hd]
    by_cases h : a ∈ seen
    · rw [if_pos h, ih seen, List.filter_cons, if_neg (by simp [h]), List.filter_filter]
      refine (List.filter_congr ?_).symm
      intro b _
      cases hbs : decide (b ∉ seen) with
      | false => simp
      | true =>
        have hbs' : b ∉ seen := of_decide_eq_true hbs
        have : b ≠ a := fun hh => hbs' (hh ▸ h)
        simp [this, hbs']
    · rw [if_neg h, ih (a :: seen), List.filter_cons, if_pos (by simp [h])]
      congr 1
      rw [List.filter_filter]
      refine List.filter_congr ?_
      intro b _
      by_cases hba : b = a <;> by_cases hbs : b ∈ seen <;>
        simp [hba, hbs, List.mem_cons]

theorem firstDedup_cons_filter [DecidableEq α] (a : α) (l : List α) :
    firstDedup (a :: l) = a :: (firstDedup l).filter (fun b => decide (b ≠ a)) := by
  rw [firstDedup, firstDedupGo_cons, if_neg (List.not_mem_nil a),
    firstDedupGo_as_filter, firstDedup]
  congr 1
  refine List.filter_congr ?_
  intro b _
  simp

theorem firstDedup_filter_comm [DecidableEq α] (p : α → Bool) (l : List α) :
    firstDedup (l.filter p) = (firstDedup l).filter p := by
  induction l with
  | nil => rfl
  | cons a t ih =>
    rw [List.filter_cons]
    cases hp : p a with
    | true =>
      rw [if_pos rfl, firstDedup_cons_filter a (List.filter p t), ih,
        firstDedup_cons_filter a t, List.filter_cons, hp, if_pos rfl,
        List.filter_filter, List.filter_filter]
      congr 1
      refine List.filter_congr ?_
      intro b _
      rw [Bool.and_comm]
    | false =>
      rw [if_neg (by simp), ih, firstDedup_cons_filter a t, List.filter_cons, hp,
        if_neg (by simp), List.filter_filter]
      refine (List.filter_congr ?_).symm
      intro b _
      cases hbp : p b with
      | false => simp
      | true =>
        have : b ≠ a := fun hh => by rw [hh, hp] at hbp; cases hbp
        simp [this]

theorem firstDedup_cons [DecidableEq α] (a : α) (l : List α) :
    firstDedup (a :: l) = a :: firstDedup (l.filter (fun b => decide (b ≠ a))) := by
  rw [firstDedup_cons_filter, firstDedup_filter_comm]

/- ### Filter and flatMap helpers -/

theorem filter_map_comm (f : α → β) (p : β → Bool) (l : List α) :
    (l.map f).filter p = (l.filter (fun a => p (f a))).map f := by
  induction l with
  | nil => rfl
  | cons a t ih =>
    simp only [List.map_cons, List.filter_cons]
    cases h : p (f a) <;> simp [h, ih]

theorem filter_and_of_imp (p q : α → Bool) (l : List α)
    (h : ∀ x ∈ l, p x = true → q x = true) :
    l.filter (fun x => p x && q x) = l.filter p := by
  induction l with
  | nil => rfl
  | cons a t ih =>
    have ht := ih (fun x hx => h x (List.mem_cons_of_mem _ hx))
    rw [List.filter_cons, List.filter_cons]
    cases hp : p a with
    | false => simp [hp, ht]
    | true => simp [hp, h a (List.mem_cons_self _ _) hp, ht]

theorem flatMap_congr_mem {l : List α} {f g : α → List β}
    (h : ∀ a ∈ l, f a = g a) : l.flatMap f = l.flatMap g := by
  induction l with
  | nil => rfl
  | cons a t ih =>
    rw [List.flatMap_cons, List.flatMap_cons, h a (List.mem_cons_self _ _),
      ih (fun x hx => h x (List.mem_cons_of_mem _ hx))]

/- ### The grouped traversal is a permutation of the input -/

theorem perm_partition_aux [DecidableEq κ] (key : α → κ) :
    ∀ (n : Nat) (l : List α), l.length ≤ n →
      ((firstDedup (l.map key)).flatMap
        (fun k => l.filter (fun a => decide (key a = k)))).Perm l := by
  intro n
  induction n with
  | zero =>
    intro l hl
    have : l = [] := List.eq_nil_of_length_eq_zero (Nat.le_zero.mp hl)
    subst this
    simp [firstDedup, firstDedupGo]
  | succ n ih =>
    intro l hl
    cases l with
    | nil => simp [firstDedup, firstDedupGo]
    | cons a t =>
      rw [List.map_cons, firstDedup_cons, List.flatMap_cons]
      rw [filter_map_comm]
      have hhead : (a :: t).filter (fun x => decide (key x = key a)) =
          a :: t.filter (fun x => decide (key x = key a)) := by
        rw [List.filter_cons, if_pos (by simp)]
      have hcong : ∀ k ∈ firstDedup ((t.filter (fun x => decide (key x ≠ key a))).map key),
          (a :: t).filter (fun x => decide (key x = k)) =
          (t.filter (fun x => decide (key x ≠ key a))).filter
            (fun x => decide (key x = k)) := by
        intro k hk
        obtain ⟨x, hx, rfl⟩ := List.mem_map.mp ((mem_firstDedup _ _).mp hk)
        have hxne : key x ≠ key a := by simpa using (List.mem_filter.mp hx).2
        rw [List.filter_cons, if_neg (by simp; exact fun hh => hxne hh.symm)]
        rw [List.filter_filter]
        rw [filter_and_of_imp _ _ _ (fun y _ hy => by
          simp only [decide_eq_true_eq] at hy
          simp [hy, hxne])]
      rw [flatMap_congr_mem hcong, hhead]
      have hlen : (t.filter (fun x => decide (key x ≠ key a))).length ≤ n :=
        le_trans (List.length_filter_le _ _) (Nat.le_of_succ_le_succ hl)
      have hperm := ih (t.filter (fun x => decide (key x ≠ key a))) hlen
      refine List.Perm.trans (List.Perm.cons a (List.Perm.append_left _ hperm)) ?_
      refine List.Perm.cons a ?_
      have hsplit := List.filter_append_perm (fun x => decide (key x = key a)) t
      refine List.Perm.trans ?_ hsplit
      refine List.Perm.append_left _ (List.Perm.of_eq ?_)
      congr 1
      funext x
      cases h : decide (key x = key a) <;> simp_all

theorem perm_partition [DecidableEq κ] (key : α → κ) (l : List α) :
    ((firstDedup (l.map key)).flatMap
      (fun k => l.filter (fun a => decide (key a = k)))).Perm l :=
  perm_partition_aux key l.length l (Nat.le_refl _)

/- ### Lemmas on `exMapM` -/

theorem exMapM_ok_forall2 {f : α → Except String β} :
    ∀ {l : List α} {bs : List β}, exMapM f l = .ok bs →
      List.Forall₂ (fun a b => f a = .ok b) l bs := by
  intro l
  induction l with
  | nil =>
    intro bs h
    simp only [exMapM] at h
    cases h
    exact List.Forall₂.nil
  | cons a t ih =>
    intro bs h
    rw [exMapM] at h
    cases hfa : f a with
    | error e => rw [hfa] at h; cases h
    | ok b =>
      rw [hfa] at h
      cases hrec : exMapM f t with
      | error e => rw [hrec] at h; cases h
      | ok bs' =>
        rw [hrec] at h
        cases h
        exact List.Forall₂.cons hfa (ih hrec)

theorem forall2_mem_right {R : α → β → Prop} :
    ∀ {l : List α} {l' : List β}, List.Forall₂ R l l' → ∀ b ∈ l', ∃ a ∈ l, R a b := by
  intro l l' h
  induction h with
  | nil => intro b hb; simp at hb
  | cons hab htail ih =>
    intro b hb
    rcases List.mem_cons.mp hb with rfl | hb
    · exact ⟨_, List.mem_cons_self _ _, hab⟩
    · obtain ⟨a, ha, hr⟩ := ih b hb
      exact ⟨a, List.mem_cons_of_mem _ ha, hr⟩

/- ### More `Frac` order lemmas -/

theorem fr_lt_of_not_le {a b : Frac} (h : ¬ a ≤ b) : b < a := by
  simp only [LE.le, LT.lt, Frac.le, Frac.lt] at *
  exact Int.lt_of_not_ge h

theorem fr_asymm {a b : Frac} (h : a < b) : ¬ b < a := by
  simp only [LT.lt, Frac.lt] at *
  exact Int.not_lt.mpr (Int.le_of_lt h)

theorem fr_lt_of_le_of_lt {a b c : Frac} (ha : 0 < a.den) (hb : 0 < b.den)
    (h1 : a ≤ b) (h2 : b < c) : a < c := by
  have had : (0:Int) < (a.den : Int) := by exact_mod_cast ha
  have hbd : (0:Int) < (b.den : Int) := by exact_mod_cast hb
  have hcd : (0:Int) ≤ (c.den : Int) := Int.natCast_nonneg _
  simp only [LE.le, LT.lt, Frac.le, Frac.lt] at h1 h2 ⊢
  have h1' := mul_le_mul_of_nonneg_right h1 hcd
  have h2' := mul_lt_mul_of_pos_right h2 had
  have key : a.num * (c.den:Int) * (b.den:Int) < c.num * (a.den:Int) * (b.den:Int) := by
    ring_nf at h1' h2' ⊢
    linarith
  exact lt_of_mul_lt_mul_right key (le_of_lt hbd)

/- ### Score facts -/

theorem fracMax_cases (a b : Frac) : fracMax a b = a ∨ fracMax a b = b := by
  rw [fracMax]
  split
  · exact Or.inr rfl
  · exact Or.inl rfl

theorem goodFrac_zero : GoodFrac 0 := ⟨Nat.one_pos, le_refl 0⟩

theorem goodFrac_nonneg {f : Frac} (h : GoodFrac f) : (0:Frac) ≤ f := by
  simp only [LE.le, Frac.le]
  have h0 : (0 : Frac).num = 0 := rfl
  have h1 : (0 : Frac).den = 1 := rfl
  rw [h0, h1]
  simpa using h.2

theorem ratioF_good (x y : List Char) : GoodFrac (ratioF x y) := by
  rw [ratioF]
  split
  · exact ⟨Nat.one_pos, by decide⟩
  · refine ⟨Nat.pos_of_ne_zero (by assumption), ?_⟩
    simp

theorem foldl_fracMax_good (l : List Frac) :
    ∀ acc, GoodFrac acc → (∀ x ∈ l, GoodFrac x) → GoodFrac (l.foldl fracMax acc) := by
  induction l with
  | nil => intro acc hacc _; exact hacc
  | cons a t ih =>
    intro acc hacc hl
    rw [List.foldl_cons]
    refine ih _ ?_ (fun x hx => hl x (List.mem_cons_of_mem _ hx))
    rcases fracMax_cases acc a with h | h <;> rw [h]
    · exact hacc
    · exact hl a (List.mem_cons_self _ _)

theorem fuzzPartialRatio_good (a b : String) : GoodFrac (fuzzPartialRatio a b) := by
  rw [fuzzPartialRatio]
  split
  · split
    · exact ⟨Nat.one_pos, by decide⟩
    · exact ⟨Nat.one_pos, le_refl 0⟩
  · refine foldl_fracMax_good _ _ goodFrac_zero ?_
    intro x hx
    obtain ⟨t, _, rfl⟩ := List.mem_map.mp hx
    exact ratioF_good _ _

/- ### `find_best_match` facts -/

theorem fbmLoop_some_facts {target : Cell} {th : Frac} :
    ∀ {cs : List Cell} {bm : Option Cell} {bs : Frac} {m : Cell} {s : Frac},
      fbmLoop target th cs bm bs = (some m, s) →
      (bm = some m ∧ bs = s) ∨
      (m ∈ cs ∧ m ≠ .na ∧
        s = fuzzPartialRatio (preprocess_string target) (preprocess_string m) ∧
        th ≤ s) := by
  intro cs
  induction cs with
  | nil =>
    intro bm bs m s h
    rw [fbmLoop] at h
    cases h
    exact Or.inl ⟨rfl, rfl⟩
  | cons c cs ih =>
    intro bm bs m s h
    rw [fbmLoop] at h
    by_cases hna : c = .na
    · rw [if_pos hna] at h
      rcases ih h with h1 | h2
      · exact Or.inl h1
      · exact Or.inr ⟨List.mem_cons_of_mem _ h2.1, h2.2⟩
    · rw [if_neg hna] at h
      by_cases hcond : bs < fuzzPartialRatio (preprocess_string target) (preprocess_string c) ∧
          th ≤ fuzzPartialRatio (preprocess_string target) (preprocess_string c)
      · rw [if_pos hcond] at h
        rcases ih h with ⟨h1, h2⟩ | h2
        · cases h1
          exact Or.inr ⟨List.mem_cons_self _ _, hna, h2.symm, h2 ▸ hcond.2⟩
        · exact Or.inr ⟨List.mem_cons_of_mem _ h2.1, h2.2⟩
      · rw [if_neg hcond] at h
        rcases ih h with h1 | h2
        · exact Or.inl h1
        · exact Or.inr ⟨List.mem_cons_of_mem _ h2.1, h2.2⟩

theorem find_best_match_some_facts {target : Cell} {cands : List Cell} {th : Frac}
    {m : Cell} {s : Frac} (h : find_best_match target cands th = (some m, s)) :
    m ∈ cands ∧ m ≠ .na ∧
    s = fuzzPartialRatio (preprocess_string target) (preprocess_string m) ∧
    th ≤ s := by
  rw [find_best_match] at h
  by_cases ht : target = .na
  · rw [if_pos ht] at h
    simp at h
  · rw [if_neg ht] at h
    by_cases hc : cands.isEmpty
    · rw [if_pos hc] at h
      simp at h
    · rw [if_neg hc] at h
      rcases fbmLoop_some_facts h with ⟨h1, _⟩ | h2
      · cases h1
      · exact h2

/- ### Threshold monotonicity engine -/

theorem fbmLoop_mono {target : Cell} {t1 t2 : Frac} (hd2 : 0 < t2.den) (h12 : t1 ≤ t2) :
    ∀ (cs : List Cell) (bm1 bm2 : Option Cell) (bs1 bs2 : Frac),
      ((bm2 = none ∧ bs2 = 0 ∧ bs1 < t2 ∧ GoodFrac bs1) ∨
        (bm1 = bm2 ∧ bs1 = bs2 ∧ t2 ≤ bs2 ∧ 0 < bs2.den)) →
      ∀ m s, fbmLoop target t2 cs bm2 bs2 = (some m, s) →
        fbmLoop target t1 cs bm1 bs1 = (some m, s) := by
  intro cs
  induction cs with
  | nil =>
    intro bm1 bm2 bs1 bs2 hinv m s h
    rw [fbmLoop] at h
    cases h
    rcases hinv with ⟨hb2, _⟩ | ⟨he1, he2, _⟩
    · cases hb2
    · rw [fbmLoop, he1, he2]
  | cons c cs ih =>
    intro bm1 bm2 bs1 bs2 hinv m s h
    rw [fbmLoop] at h
    rw [fbmLoop]
    by_cases hna : c = .na
    · rw [if_pos hna] at h ⊢
      exact ih _ _ _ _ hinv m s h
    · rw [if_neg hna] at h ⊢
      have hgood := fuzzPartialRatio_good (preprocess_string target) (preprocess_string c)
      rcases hinv with ⟨hb2, hbs2, hlt, hgood1⟩ | ⟨he1, he2, hle, hden⟩
      · subst hb2
        subst hbs2
        by_cases hcond : (0:Frac) < fuzzPartialRatio (preprocess_string target) (preprocess_string c) ∧
            t2 ≤ fuzzPartialRatio (preprocess_string target) (preprocess_string c)
        · rw [if_pos hcond] at h
          have hlt1 : bs1 < fuzzPartialRatio (preprocess_string target) (preprocess_string c) :=
            fr_lt_of_lt_of_le hd2 hgood.1 hlt hcond.2
          have hle1 : t1 ≤ fuzzPartialRatio (preprocess_string target) (preprocess_string c) :=
            fr_le_trans_mid hd2 h12 hcond.2
          rw [if_pos ⟨hlt1, hle1⟩]
          exact ih _ _ _ _ (Or.inr ⟨rfl, rfl, hcond.2, hgood.1⟩) m s h
        · rw [if_neg hcond] at h
          have hsplit : ¬ ((0:Frac) < fuzzPartialRatio (preprocess_string target) (preprocess_string c)) ∨
              ¬ (t2 ≤ fuzzPartialRatio (preprocess_string target) (preprocess_string c)) := by
            by_cases h1 : (0:Frac) < fuzzPartialRatio (preprocess_string target) (preprocess_string c)
            · by_cases h2 : t2 ≤ fuzzPartialRatio (preprocess_string target) (preprocess_string c)
              · exact absurd ⟨h1, h2⟩ hcond
              · exact Or.inr h2
            · exact Or.inl h1
          rcases hsplit with hnpos | hnle
          · by_cases hle2 : t2 ≤ fuzzPartialRatio (preprocess_string target) (preprocess_string c)
            · exfalso
              have h0 : (0:Frac) < t2 :=
                fr_lt_of_le_of_lt goodFrac_zero.1 hgood1.1 (goodFrac_nonneg hgood1) hlt
              exact hnpos (fr_lt_of_lt_of_le hd2 hgood.1 h0 hle2)
            · by_cases hcond1 : bs1 < fuzzPartialRatio (preprocess_string target) (preprocess_string c) ∧
                  t1 ≤ fuzzPartialRatio (preprocess_string target) (preprocess_string c)
              · rw [if_pos hcond1]
                refine ih _ _ _ _ (Or.inl ⟨rfl, rfl, fr_lt_of_not_le hle2, hgood⟩) m s h
              · rw [if_neg hcond1]
                exact ih _ _ _ _ (Or.inl ⟨rfl, rfl, hlt, hgood1⟩) m s h
          · have hlt2 : fuzzPartialRatio (preprocess_string target) (preprocess_string c) < t2 :=
              fr_lt_of_not_le hnle
            by_cases hcond1 : bs1 < fuzzPartialRatio (preprocess_string target) (preprocess_string c) ∧
                t1 ≤ fuzzPartialRatio (preprocess_string target) (preprocess_string c)
            · rw [if_pos hcond1]
              exact ih _ _ _ _ (Or.inl ⟨rfl, rfl, hlt2, hgood⟩) m s h
            · rw [if_neg hcond1]
              exact ih _ _ _ _ (Or.inl ⟨rfl, rfl, hlt, hgood1⟩) m s h
      · rw [he1, he2]
        by_cases hcond : bs2 < fuzzPartialRatio (preprocess_string target) (preprocess_string c) ∧
            t2 ≤ fuzzPartialRatio (preprocess_string target) (preprocess_string c)
        · rw [if_pos hcond] at h
          have hle1 : t1 ≤ fuzzPartialRatio (preprocess_string target) (preprocess_string c) :=
            fr_le_trans_mid hd2 h12 hcond.2
          rw [if_pos ⟨hcond.1, hle1⟩]
          exact ih _ _ _ _ (Or.inr ⟨rfl, rfl, hcond.2, hgood.1⟩) m s h
        · rw [if_neg hcond] at h
          have hncond1 : ¬ (bs2 < fuzzPartialRatio (preprocess_string target) (preprocess_string c) ∧
              t1 ≤ fuzzPartialRatio (preprocess_string target) (preprocess_string c)) := by
            rintro ⟨hb, _⟩
            by_cases hle2 : t2 ≤ fuzzPartialRatio (preprocess_string target) (preprocess_string c)
            · exact hcond ⟨hb, hle2⟩
            · have : fuzzPartialRatio (preprocess_string target) (preprocess_string c) < bs2 :=
                fr_lt_of_lt_of_le hd2 hden (fr_lt_of_not_le hle2) hle
              exact fr_asymm hb this
          rw [if_neg hncond1]
          exact ih _ _ _ _ (Or.inr ⟨rfl, rfl, hle, hden⟩) m s h

/- ### Shape of the merge computation -/

theorem processRow_ok {pid : DF} {k : Cell × Cell} {r : Row} {fr : Frame}
    (h : processRow pid k r = .ok fr) : RowCase pid k r fr := by
  rw [processRow] at h
  split at h
  · cases h
    exact Or.inl rfl
  · rename_i h1
    split at h
    · rename_i m s hfbm
      split at h
      · rename_i h2
        split at h
        · rename_i mpr hfind
          cases h
          exact Or.inr ⟨_, ⟨m, s, mpr, h1, hfbm, h2.1, h2.2, hfind, rfl⟩, rfl⟩
        · cases h
      · cases h
        exact Or.inl rfl
    · cases h
      exact Or.inl rfl

theorem processKey_ok {agg pid : DF} {k : Cell × Cell} {frs : List Frame}
    (h : processKey agg pid k = .ok frs) : KeyCase agg pid k frs := by
  rw [processKey] at h
  by_cases he : (pidSubFor pid k).isEmpty
  · rw [if_pos he] at h
    cases h
    exact Or.inl ⟨he, rfl⟩
  · rw [if_neg he] at h
    refine Or.inr ⟨Bool.not_eq_true _ ▸ by simpa using he, ?_⟩
    exact (exMapM_ok_forall2 h).imp (fun a b hab => processRow_ok hab)

theorem processKey_ne_nil {agg pid : DF} {k : Cell × Cell} {frs : List Frame}
    (hk : k ∈ firstDedup (agg.rows.map keyOf))
    (h : processKey agg pid k = .ok frs) : frs ≠ [] := by
  rcases processKey_ok h with ⟨_, rfl⟩ | ⟨hne, hf2⟩
  · simp
  · intro hnil
    subst hnil
    have hlen := hf2.length_eq
    simp only [List.length_nil] at hlen
    obtain ⟨r0, hr0, hk0⟩ := List.mem_map.mp ((mem_firstDedup _ _).mp hk)
    obtain ⟨pr, hpr⟩ : ∃ pr, pr ∈ pidSubFor pid k := by
      cases hps : pidSubFor pid k with
      | nil => rw [hps] at hne; simp [List.isEmpty] at hne
      | cons p t => exact ⟨p, List.mem_cons_self _ _⟩
    have hfilter := (List.mem_filter.mp hpr).2
    rw [Bool.and_eq_true] at hfilter
    have hk1 : k.1 ≠ .na := cellEq_ne_na_right hfilter.1
    have hk2 : k.2 ≠ .na := cellEq_ne_na_right hfilter.2
    have hr0mem : r0 ∈ aggSubFor agg k := by
      refine List.mem_filter.mpr ⟨hr0, ?_⟩
      rw [Bool.and_eq_true, ← hk0]
      simp only [keyOf]
      rw [← hk0] at hk1 hk2
      simp only [keyOf] at hk1 hk2
      exact ⟨cellEq_self hk1, cellEq_self hk2⟩
    have hempty : aggSubFor agg k = [] := List.eq_nil_of_length_eq_zero hlen
    rw [hempty] at hr0mem
    exact absurd hr0mem (List.not_mem_nil _)

theorem fillAndCount_ok {cols : List String} {rs : List Row} {out : DF}
    (h : fillAndCount cols rs = .ok out) :
    out.cols = cols ∧ out.rows = rs.map fillAll ∧
    "matched_project_description" ∈ cols ∧ "match_score" ∈ cols ∧
    "pid_ohl_nr" ∈ cols := by
  rw [fillAndCount] at h
  split_ifs at h with h1 h2 h3 h4
  all_goals cases h
  refine ⟨rfl, ?_, h1, h2, h3⟩
  simp only [List.map_map]
  rfl

theorem merge_some_ok_cases {agg pid out : DF}
    (hra : HasRequiredAgg agg) (hrp : HasRequiredPid pid)
    (h : (merge_with_pid_fuzzy agg (some pid)).2 = .ok out) :
    (agg.rows = [] ∧ out = agg) ∨
    ∃ framess,
      List.Forall₂ (fun k frs => processKey agg pid k = .ok frs)
        (firstDedup (agg.rows.map keyOf)) framess ∧
      framess.flatten ≠ [] ∧
      fillAndCount (concatCols framess.flatten)
        ((framess.flatten.map Prod.snd).flatten) = .ok out := by
  rw [merge_with_pid_fuzzy] at h
  by_cases hrows : agg.rows.isEmpty
  · left
    rw [if_pos (by simp [hrows])] at h
    cases h
    exact ⟨List.isEmpty_iff.mp hrows, rfl⟩
  · have hcols : ¬ agg.cols.isEmpty = true := by
      intro hc
      have := hra "project" (by simp [requiredAggCols])
      rw [List.isEmpty_iff.mp hc] at this
      exact absurd this (List.not_mem_nil _)
    rw [if_neg (by simp [hrows, hcols])] at h
    have hmA : requiredAggCols.filter (fun c => decide (c ∉ agg.cols)) = [] := by
      rw [List.filter_eq_nil_iff]
      intro c hc
      simp [hra c hc]
    have hmP : requiredPidCols.filter (fun c => decide (c ∉ pid.cols)) = [] := by
      rw [List.filter_eq_nil_iff]
      intro c hc
      simp [hrp c hc]
    rw [if_neg (not_not_intro hmA), if_neg (not_not_intro hmP), mergeMain] at h
    split at h
    · simp at h
    · rename_i framess hex
      right
      have hfa := exMapM_ok_forall2 hex
      have hkeys_ne : firstDedup (agg.rows.map keyOf) ≠ [] := by
        cases hr : agg.rows with
        | nil => rw [hr] at hrows; simp at hrows
        | cons r t =>
          rw [List.map_cons, firstDedup_cons]
          simp
      have hflat : framess.flatten ≠ [] := by
        intro hfl
        cases hks : firstDedup (agg.rows.map keyOf) with
        | nil => exact hkeys_ne hks
        | cons k ks =>
          rw [hks] at hfa
          cases hfa with
          | cons hk1 htail =>
            rename_i frs frss
            have hkmem : k ∈ firstDedup (agg.rows.map keyOf) := by
              rw [hks]
              exact List.mem_cons_self _ _
            have hne := processKey_ne_nil hkmem hk1
            rw [List.flatten_eq_nil_iff] at hfl
            exact hne (hfl frs (List.mem_cons_self _ _))
      rw [if_neg (by simpa [List.isEmpty_iff] using hflat)] at h
      exact ⟨framess, hfa, hflat, h⟩

theorem mem_frames_rows {framess : List (List Frame)} {row : Row}
    (hmem : row ∈ (framess.flatten.map Prod.snd).flatten) :
    ∃ frs ∈ framess, ∃ fr ∈ frs, row ∈ fr.2 := by
  rw [List.mem_flatten] at hmem
  obtain ⟨x, hx, hrow⟩ := hmem
  obtain ⟨fr, hfr, rfl⟩ := List.mem_map.mp hx
  obtain ⟨frs, hfrs, hfr'⟩ := List.mem_flatten.mp hfr
  exact ⟨frs, hfrs, fr, hfr', hrow⟩

/-- Where each output row of a successful merge comes from: some aggregated
row of some key partition, either kept as is or enriched, then passed
through the three `fillna` columns. -/
theorem merge_ok_row_origin {agg pid out : DF}
    (hra : HasRequiredAgg agg) (hrp : HasRequiredPid pid)
    (h : (merge_with_pid_fuzzy agg (some pid)).2 = .ok out) :
    ∀ row ∈ out.rows,
      ∃ k ∈ firstDedup (agg.rows.map keyOf), ∃ r ∈ aggSubFor agg k,
        (row = fillAll r ∨ ∃ row0, EnrichedFrom pid k r row0 ∧ row = fillAll row0) := by
  rcases merge_some_ok_cases hra hrp h with ⟨hnil, rfl⟩ | ⟨framess, hfa, _, hfc⟩
  · intro row hrow
    rw [hnil] at hrow
    exact absurd hrow (List.not_mem_nil _)
  · intro row hrow
    obtain ⟨_, hrows, _⟩ := fillAndCount_ok hfc
    rw [hrows] at hrow
    obtain ⟨row0, hrow0, rfl⟩ := List.mem_map.mp hrow
    obtain ⟨frs, hfrs, fr, hfr, hrmem⟩ := mem_frames_rows hrow0
    obtain ⟨k, hk, hpk⟩ := forall2_mem_right hfa frs hfrs
    rcases processKey_ok hpk with ⟨_, rfl⟩ | ⟨_, hf2⟩
    · rcases List.mem_cons.mp hfr with rfl | hfr'
      · exact ⟨k, hk, row0, hrmem, Or.inl rfl⟩
      · exact absurd hfr' (List.not_mem_nil _)
    · obtain ⟨r, hr, hrc⟩ := forall2_mem_right hf2 fr hfr
      rcases hrc with rfl | ⟨row1, henr, rfl⟩
      · have hrmem' : row0 ∈ [r] := hrmem
        rcases List.mem_cons.mp hrmem' with heq | hx
        · exact ⟨k, hk, r, hr, Or.inl (congrArg fillAll heq)⟩
        · exact absurd hx (List.not_mem_nil _)
      · have hrmem' : row0 ∈ [row1] := hrmem
        rcases List.mem_cons.mp hrmem' with heq | hx
        · exact ⟨k, hk, r, hr, Or.inr ⟨row1, henr, congrArg fillAll heq⟩⟩
        · exact absurd hx (List.not_mem_nil _)

/- ### Cells of filled and enriched rows -/

theorem fillAll_mpd (r : Row) :
    getCell (fillAll r) "matched_project_description" =
      if getCell r "matched_project_description" = .na then .str "No Match"
      else getCell r "matched_project_description" := by
  rw [fillAll, getCell_fillCol_ne _ _ _ (by decide),
    getCell_fillCol_ne _ _ _ (by decide), getCell_fillCol_self]

theorem fillAll_score (r : Row) :
    getCell (fillAll r) "match_score" =
      if getCell r "match_score" = .na then .num 0
      else getCell r "match_score" := by
  rw [fillAll, getCell_fillCol_ne _ _ _ (by decide), getCell_fillCol_self,
    getCell_fillCol_ne _ _ _ (by decide)]

theorem fillAll_pid (r : Row) :
    getCell (fillAll r) "pid_ohl_nr" =
      if getCell r "pid_ohl_nr" = .na then .str "Not Available"
      else getCell r "pid_ohl_nr" := by
  rw [fillAll, getCell_fillCol_self, getCell_fillCol_ne _ _ _ (by decide),
    getCell_fillCol_ne _ _ _ (by decide)]

theorem fillAll_other (r : Row) {c : String}
    (h1 : c ≠ "matched_project_description") (h2 : c ≠ "match_score")
    (h3 : c ≠ "pid_ohl_nr") : getCell (fillAll r) c = getCell r c := by
  rw [fillAll, getCell_fillCol_ne _ _ _ (fun hh => h3 hh.symm),
    getCell_fillCol_ne _ _ _ (fun hh => h2 hh.symm),
    getCell_fillCol_ne _ _ _ (fun hh => h1 hh.symm)]

theorem foldl_pidColStep_getCell (mpr : Row) :
    ∀ (cols : List String) (row : Row) (c : String),
      (c ∈ rowKeys row ∨ c = "project" ∨ c = "shire") →
      getCell (cols.foldl (pidColStep mpr) row) c = getCell row c := by
  intro cols
  induction cols with
  | nil => intro row c _; rfl
  | cons c' cols ih =>
    intro row c hc
    rw [List.foldl_cons, pidColStep]
    by_cases hskip : c' ∈ rowKeys row ∨ c' = "project" ∨ c' = "shire"
    · rw [if_pos hskip]
      exact ih row c hc
    · rw [if_neg hskip]
      have hne : c' ≠ c := by
        intro hh
        subst hh
        rcases hc with hmem | rfl | rfl
        · exact hskip (Or.inl hmem)
        · exact hskip (Or.inr (Or.inl rfl))
        · exact hskip (Or.inr (Or.inr rfl))
      rw [ih _ c ?_, getCell_setCell_ne _ _ hne]
      rcases hc with hmem | rfl | rfl
      · exact Or.inl ((mem_rowKeys_setCell _ _ _ _).mpr (Or.inl hmem))
      · exact Or.inr (Or.inl rfl)
      · exact Or.inr (Or.inr rfl)

theorem mem_rowKeys_set4 {r : Row} {c : String} (hc : c ∈ rowKeys r)
    (c1 c2 c3 c4 : String) (v1 v2 v3 v4 : Cell) :
    c ∈ rowKeys (setCell (setCell (setCell (setCell r c1 v1) c2 v2) c3 v3) c4 v4) := by
  refine (mem_rowKeys_setCell _ _ _ _).mpr (Or.inl ?_)
  refine (mem_rowKeys_setCell _ _ _ _).mpr (Or.inl ?_)
  refine (mem_rowKeys_setCell _ _ _ _).mpr (Or.inl ?_)
  exact (mem_rowKeys_setCell _ _ _ _).mpr (Or.inl hc)

theorem getCell_enrichRow_other (pidCols : List String) (r mpr : Row) (m : Cell)
    (s : Frac) {c : String}
    (h1 : c ≠ "matched_project_description") (h2 : c ≠ "match_score")
    (h3 : c ≠ "pid_ohl_nr") (h4 : c ≠ "project_description")
    (hmem : c ∈ rowKeys r ∨ c = "project" ∨ c = "shire") :
    getCell (enrichRow pidCols r mpr m s) c = getCell r c := by
  rw [enrichRow, foldl_pidColStep_getCell _ _ _ _ ?side]
  case side =>
    rcases hmem with hm | hps
    · exact Or.inl (mem_rowKeys_set4 hm _ _ _ _ _ _ _ _)
    · exact Or.inr hps
  rw [getCell_setCell_ne _ _ (fun hh => h4 hh.symm),
    getCell_setCell_ne _ _ (fun hh => h3 hh.symm),
    getCell_setCell_ne _ _ (fun hh => h2 hh.symm),
    getCell_setCell_ne _ _ (fun hh => h1 hh.symm)]

theorem getCell_enrichRow_score (pidCols : List String) (r mpr : Row) (m : Cell)
    (s : Frac) :
    getCell (enrichRow pidCols r mpr m s) "match_score" = .num s := by
  rw [enrichRow, foldl_pidColStep_getCell _ _ _ _ ?side]
  case side =>
    refine Or.inl ?_
    refine (mem_rowKeys_setCell _ _ _ _).mpr (Or.inl ?_)
    refine (mem_rowKeys_setCell _ _ _ _).mpr (Or.inl ?_)
    exact (mem_rowKeys_setCell _ _ _ _).mpr (Or.inr rfl)
  rw [getCell_setCell_ne _ _ (by decide), getCell_setCell_ne _ _ (by decide),
    getCell_setCell_self]

theorem getCell_enrichRow_pid (pidCols : List String) (r mpr : Row) (m : Cell)
    (s : Frac) :
    getCell (enrichRow pidCols r mpr m s) "pid_ohl_nr" =
      getCell mpr "pid_ohl_nr" := by
  rw [enrichRow, foldl_pidColStep_getCell _ _ _ _ ?side]
  case side =>
    refine Or.inl ?_
    refine (mem_rowKeys_setCell _ _ _ _).mpr (Or.inl ?_)
    exact (mem_rowKeys_setCell _ _ _ _).mpr (Or.inr rfl)
  rw [getCell_setCell_ne _ _ (by decide), getCell_setCell_self]

theorem getCell_enrichRow_mpd (pidCols : List String) (r mpr : Row) (m : Cell)
    (s : Frac) :
    getCell (enrichRow pidCols r mpr m s) "matched_project_description" = m := by
  rw [enrichRow, foldl_pidColStep_getCell _ _ _ _ ?side]
  case side =>
    refine Or.inl ?_
    refine (mem_rowKeys_setCell _ _ _ _).mpr (Or.inl ?_)
    refine (mem_rowKeys_setCell _ _ _ _).mpr (Or.inl ?_)
    refine (mem_rowKeys_setCell _ _ _ _).mpr (Or.inl ?_)
    exact (mem_rowKeys_setCell _ _ _ _).mpr (Or.inr rfl)
  rw [getCell_setCell_ne _ _ (by decide), getCell_setCell_ne _ _ (by decide),
    getCell_setCell_ne _ _ (by decide), getCell_setCell_self]

theorem mem_aggSubFor {agg : DF} {k : Cell × Cell} {r : Row}
    (h : r ∈ aggSubFor agg k) :
    r ∈ agg.rows ∧ cellEq (getCell r "project") k.1 = true ∧
      cellEq (getCell r "shire") k.2 = true := by
  have := List.mem_filter.mp h
  rw [Bool.and_eq_true] at this
  exact ⟨this.1, this.2.1, this.2.2⟩

theorem mem_pidSubFor {pid : DF} {k : Cell × Cell} {r : Row}
    (h : r ∈ pidSubFor pid k) :
    r ∈ pid.rows ∧ cellEq (getCell r "project") k.1 = true ∧
      cellEq (getCell r "shire") k.2 = true := by
  have := List.mem_filter.mp h
  rw [Bool.and_eq_true] at this
  exact ⟨this.1, this.2.1, this.2.2⟩

theorem mem_candsFor {pid : DF} {k : Cell × Cell} {m : Cell}
    (h : m ∈ candsFor pid k) :
    m ≠ .na ∧ ∃ pr ∈ pidSubFor pid k, getCell pr "project_description" = m := by
  rw [candsFor, mem_firstDedup] at h
  have h2 := List.mem_filter.mp h
  obtain ⟨pr, hpr, heq⟩ := List.mem_map.mp h2.1
  exact ⟨by simpa using h2.2, pr, hpr, heq⟩

theorem isStr_ne_na {x : Cell} (h : x.isStr = true) : x ≠ .na := by
  cases x <;> simp_all [Cell.isStr]

theorem cellEq_left_str {x y : Cell} (hx : x.isStr = true) :
    cellEq x y = true ↔ y = x := by
  cases x with
  | na => simp [Cell.isStr] at hx
  | num q => simp [Cell.isStr] at hx
  | str s =>
    cases y with
    | na =>
      have hf : cellEq (Cell.str s) Cell.na = false := rfl
      rw [hf]
      simp
    | num q =>
      have hf : cellEq (Cell.str s) (Cell.num q) = false := rfl
      rw [hf]
      simp
    | str b =>
      constructor
      · intro hh
        have hh' : (s == b) = true := hh
        have hsb : s = b := by simpa using hh'
        rw [hsb]
      · intro hh
        have hbs : b = s := by injection hh
        subst hbs
        exact cellEq_self (by intro hc; cases hc)

theorem plain_row_cells {agg : DF} {r : Row}
    (hwf : WFRows agg) (hres : NoReserved agg) (hr : r ∈ agg.rows) :
    getCell (fillAll r) "match_score" = .num 0 ∧
    getCell (fillAll r) "pid_ohl_nr" = .str "Not Available" ∧
    getCell (fillAll r) "matched_project_description" = .str "No Match" := by
  have hkeys := hwf r hr
  have hna : ∀ c ∈ reservedCols, getCell r c = .na := by
    intro c hc
    apply getCell_eq_na_of_not_mem
    rw [hkeys]
    exact hres c hc
  refine ⟨?_, ?_, ?_⟩
  · rw [fillAll_score, hna "match_score" (by decide)]
    simp
  · rw [fillAll_pid, hna "pid_ohl_nr" (by decide)]
    simp
  · rw [fillAll_mpd, hna "matched_project_description" (by decide)]
    simp

theorem fpr_empty_left {b : String} (hb : b ≠ "") : fuzzPartialRatio "" b = 0 := by
  have hlen : b.toList.length ≠ 0 := by
    intro hh
    apply hb
    have h0 : b.toList = [] := List.eq_nil_of_length_eq_zero hh
    cases b with
    | mk l =>
      simp only [String.toList] at h0
      rw [h0]
  rw [fuzzPartialRatio,
    if_pos (show "".toList.length = 0 ∨ b.toList.length = 0 from Or.inl rfl),
    if_neg (show ¬ "".toList.length = b.toList.length from fun hh => hlen hh.symm)]

/- ### Claim theorems: invariants on output rows -/

/-- Claim C2 (amended): in every returned output row, either the match score
is at least the threshold 75 (every accepted row), or the row carries score 0
together with the "Not Available" sentinel id (every non-accepted row).
Hence a non-sentinel reference id implies score ≥ 75; the converse of the
claimed biconditional fails only for accepted rows whose reference record
has a null `pid_ohl_nr`, which are rendered with score ≥ 75 and the sentinel
id (see the counterexample). -/
theorem claim_C2_amended (agg pid out : DF)
    (hwf : WFRows agg) (hres : NoReserved agg)
    (hra : HasRequiredAgg agg) (hrp : HasRequiredPid pid)
    (h : (merge_with_pid_fuzzy agg (some pid)).2 = .ok out) :
    ∀ row ∈ out.rows,
      (∃ q, getCell row "match_score" = Cell.num q ∧ (75:Frac) ≤ q) ∨
      (getCell row "match_score" = Cell.num 0 ∧
        getCell row "pid_ohl_nr" = Cell.str "Not Available") := by
  intro row hrow
  obtain ⟨k, hk, r, hr, hcase⟩ := merge_ok_row_origin hra hrp h row hrow
  have hrmem := (mem_aggSubFor hr).1
  rcases hcase with rfl | ⟨row0, henr, rfl⟩
  · right
    have hp := plain_row_cells hwf hres hrmem
    exact ⟨hp.1, hp.2.1⟩
  · left
    obtain ⟨m, s, mpr, hdesc, hfbm, htruthy, hs, hfind, rfl⟩ := henr
    refine ⟨s, ?_, hs⟩
    rw [fillAll_score, getCell_enrichRow_score]
    simp

/-- Claim C6 (amended): no returned output row ever carries a match score
strictly between 0 and 75: `find_best_match` never records a sub-threshold
score, so a row whose best computed similarity lies in (0, 75) is emitted
with score 0 (the sentinel), not with the computed best score (see the
counterexample). -/
theorem claim_C6_amended (agg pid out : DF)
    (hwf : WFRows agg) (hres : NoReserved agg)
    (hra : HasRequiredAgg agg) (hrp : HasRequiredPid pid)
    (h : (merge_with_pid_fuzzy agg (some pid)).2 = .ok out) :
    ∀ row ∈ out.rows,
      ¬ ∃ q, getCell row "match_score" = Cell.num q ∧ (0:Frac) < q ∧ q < 75 := by
  intro row hrow hex
  obtain ⟨q, hq, h0, h75⟩ := hex
  obtain ⟨k, hk, r, hr, hcase⟩ := merge_ok_row_origin hra hrp h row hrow
  have hrmem := (mem_aggSubFor hr).1
  rcases hcase with rfl | ⟨row0, henr, rfl⟩
  · have hp := (plain_row_cells hwf hres hrmem).1
    rw [hp] at hq
    cases hq
    exact absurd h0 (by decide)
  · obtain ⟨m, s, mpr, hdesc, hfbm, htruthy, hs, hfind, rfl⟩ := henr
    rw [fillAll_score, getCell_enrichRow_score] at hq
    simp at hq
    cases hq
    exact absurd h75 (fr_not_lt_of_le hs)

/-- Claim C3: key-bounded matching.  In every returned output row with a
non-sentinel reference id, the reference record the id and description were
copied from has exactly the row's project and shire; and a row whose
(project, shire) pair no reference record shares is emitted with the
sentinel id and score 0 (its candidate set is empty, so no comparison can
accept). -/
theorem claim_C3 (agg pid out : DF)
    (hwf : WFRows agg) (hres : NoReserved agg) (hkeys : StrKeys agg)
    (hra : HasRequiredAgg agg) (hrp : HasRequiredPid pid)
    (h : (merge_with_pid_fuzzy agg (some pid)).2 = .ok out) :
    ∀ row ∈ out.rows,
      (getCell row "pid_ohl_nr" ≠ Cell.str "Not Available" →
        ∃ pr ∈ pid.rows,
          getCell pr "project" = getCell row "project" ∧
          getCell pr "shire" = getCell row "shire" ∧
          getCell pr "pid_ohl_nr" = getCell row "pid_ohl_nr" ∧
          cellEq (getCell pr "project_description")
            (getCell row "matched_project_description") = true) ∧
      ((∀ pr ∈ pid.rows,
          ¬(cellEq (getCell pr "project") (getCell row "project") = true ∧
            cellEq (getCell pr "shire") (getCell row "shire") = true)) →
        getCell row "pid_ohl_nr" = Cell.str "Not Available" ∧
        getCell row "match_score" = Cell.num 0) := by
  intro row hrow
  obtain ⟨k, hk, r, hr, hcase⟩ := merge_ok_row_origin hra hrp h row hrow
  obtain ⟨hrmem, hcq1, hcq2⟩ := mem_aggSubFor hr
  have hproj : "project" ∈ rowKeys r ∨ "project" = "project" ∨ "project" = "shire" :=
    Or.inr (Or.inl rfl)
  have hshire : "shire" ∈ rowKeys r ∨ "shire" = "project" ∨ "shire" = "shire" :=
    Or.inr (Or.inr rfl)
  rcases hcase with rfl | ⟨row0, henr, rfl⟩
  · have hp := plain_row_cells hwf hres hrmem
    constructor
    · intro hne
      exact absurd hp.2.1 hne
    · intro _
      exact ⟨hp.2.1, hp.1⟩
  · obtain ⟨m, s, mpr, hdesc, hfbm, htruthy, hs, hfind, rfl⟩ := henr
    obtain ⟨hmprsub, hmq1, hmq2⟩ := mem_pidSubFor (List.mem_of_find?_eq_some hfind)
    have hfbmfacts := find_best_match_some_facts hfbm
    have hrowproj : getCell (fillAll (enrichRow pid.cols r mpr m s)) "project" =
        getCell r "project" := by
      rw [fillAll_other _ (by decide) (by decide) (by decide),
        getCell_enrichRow_other _ _ _ _ _ (by decide) (by decide) (by decide)
          (by decide) hproj]
    have hrowshire : getCell (fillAll (enrichRow pid.cols r mpr m s)) "shire" =
        getCell r "shire" := by
      rw [fillAll_other _ (by decide) (by decide) (by decide),
        getCell_enrichRow_other _ _ _ _ _ (by decide) (by decide) (by decide)
          (by decide) hshire]
    have hkstr := hkeys r hrmem
    have hk1 : k.1 = getCell r "project" := (cellEq_left_str hkstr.1).mp hcq1
    have hk2 : k.2 = getCell r "shire" := (cellEq_left_str hkstr.2).mp hcq2
    have hmpr1 : getCell mpr "project" = getCell r "project" := by
      rw [hk1] at hmq1
      exact (isStr_cellEq_iff hkstr.1).mp hmq1
    have hmpr2 : getCell mpr "shire" = getCell r "shire" := by
      rw [hk2] at hmq2
      exact (isStr_cellEq_iff hkstr.2).mp hmq2
    have hpidcell : getCell (fillAll (enrichRow pid.cols r mpr m s)) "pid_ohl_nr" =
        if getCell mpr "pid_ohl_nr" = .na then .str "Not Available"
        else getCell mpr "pid_ohl_nr" := by
      rw [fillAll_pid, getCell_enrichRow_pid]
    constructor
    · intro hne
      by_cases hna : getCell mpr "pid_ohl_nr" = .na
      · exfalso
        apply hne
        rw [hpidcell, if_pos hna]
      · refine ⟨mpr, hmprsub, ?_, ?_, ?_, ?_⟩
        · rw [hrowproj, hmpr1]
        · rw [hrowshire, hmpr2]
        · rw [hpidcell, if_neg hna]
        · have hmna : m ≠ .na := hfbmfacts.2.1
          have hmpd : getCell (fillAll (enrichRow pid.cols r mpr m s))
              "matched_project_description" = m := by
            rw [fillAll_mpd, getCell_enrichRow_mpd, if_neg hmna]
          have hpeq := List.find?_some hfind
          rw [hmpd]
          simpa using hpeq
    · intro hall
      exfalso
      refine hall mpr hmprsub ⟨?_, ?_⟩
      · rw [hrowproj, hmpr1]
        exact cellEq_self (isStr_ne_na hkstr.1)
      · rw [hrowshire, hmpr2]
        exact cellEq_self (isStr_ne_na hkstr.2)

/-- Claim C7 (amended): a returned output row whose `segmentdesc` is null
(NaN) always carries the sentinel id and score 0 (no comparison can accept
it); a row whose `segmentdesc` is the empty string is actually compared, but
still receives the sentinel with score 0 provided no reference description
in the row's own (project, shire) partition normalizes to the empty string —
an empty-normalizing reference description in that partition would instead
be accepted with score 100 (see the counterexample).  Key cells are
identifier strings, per the spec's data model. -/
theorem claim_C7_amended (agg pid out : DF)
    (hwf : WFRows agg) (hres : NoReserved agg) (hkeys : StrKeys agg)
    (hra : HasRequiredAgg agg) (hrp : HasRequiredPid pid)
    (h : (merge_with_pid_fuzzy agg (some pid)).2 = .ok out) :
    ∀ row ∈ out.rows,
      (getCell row "segmentdesc" = Cell.na →
        getCell row "pid_ohl_nr" = Cell.str "Not Available" ∧
        getCell row "match_score" = Cell.num 0) ∧
      (getCell row "segmentdesc" = Cell.str "" ∧
        (∀ pr ∈ pid.rows,
          cellEq (getCell pr "project") (getCell row "project") = true ∧
          cellEq (getCell pr "shire") (getCell row "shire") = true →
          preprocess_string (getCell pr "project_description") ≠ "") →
        getCell row "pid_ohl_nr" = Cell.str "Not Available" ∧
        getCell row "match_score" = Cell.num 0) := by
  intro row hrow
  obtain ⟨k, hk, r, hr, hcase⟩ := merge_ok_row_origin hra hrp h row hrow
  obtain ⟨hrmem, hcq1, hcq2⟩ := mem_aggSubFor hr
  rcases hcase with rfl | ⟨row0, henr, rfl⟩
  · have hp := plain_row_cells hwf hres hrmem
    exact ⟨fun _ => ⟨hp.2.1, hp.1⟩, fun _ => ⟨hp.2.1, hp.1⟩⟩
  · obtain ⟨m, s, mpr, hdesc, hfbm, htruthy, hs, hfind, rfl⟩ := henr
    have hrowdesc : getCell (fillAll (enrichRow pid.cols r mpr m s)) "segmentdesc" =
        getCell r "segmentdesc" := by
      rw [fillAll_other _ (by decide) (by decide) (by decide),
        getCell_enrichRow_other _ _ _ _ _ (by decide) (by decide) (by decide)
          (by decide) (Or.inl ?_)]
      rw [hwf r hrmem]
      exact hra "segmentdesc" (by decide)
    have hrowproj : getCell (fillAll (enrichRow pid.cols r mpr m s)) "project" =
        getCell r "project" := by
      rw [fillAll_other _ (by decide) (by decide) (by decide),
        getCell_enrichRow_other _ _ _ _ _ (by decide) (by decide) (by decide)
          (by decide) (Or.inr (Or.inl rfl))]
    have hrowshire : getCell (fillAll (enrichRow pid.cols r mpr m s)) "shire" =
        getCell r "shire" := by
      rw [fillAll_other _ (by decide) (by decide) (by decide),
        getCell_enrichRow_other _ _ _ _ _ (by decide) (by decide) (by decide)
          (by decide) (Or.inr (Or.inr rfl))]
    have hkstr := hkeys r hrmem
    have hk1 : k.1 = getCell r "project" := (cellEq_left_str hkstr.1).mp hcq1
    have hk2 : k.2 = getCell r "shire" := (cellEq_left_str hkstr.2).mp hcq2
    constructor
    · intro hna
      rw [hrowdesc] at hna
      exact absurd hna hdesc
    · rintro ⟨hempty, hall⟩
      exfalso
      rw [hrowdesc] at hempty
      have hfacts := find_best_match_some_facts hfbm
      obtain ⟨hmc, hmna, hseq, hth⟩ := hfacts
      obtain ⟨_, pr, hpr, hprm⟩ := mem_candsFor hmc
      obtain ⟨hprrows, hmq1, hmq2⟩ := mem_pidSubFor hpr
      have hg1 : cellEq (getCell pr "project")
          (getCell (fillAll (enrichRow pid.cols r mpr m s)) "project") = true := by
        rw [hrowproj, ← hk1]
        exact hmq1
      have hg2 : cellEq (getCell pr "shire")
          (getCell (fillAll (enrichRow pid.cols r mpr m s)) "shire") = true := by
        rw [hrowshire, ← hk2]
        exact hmq2
      have hprne := hall pr hprrows ⟨hg1, hg2⟩
      rw [hprm] at hprne
      rw [hempty] at hseq
      have hpre : preprocess_string (Cell.str "") = "" := rfl
      rw [hpre, fpr_empty_left hprne] at hseq
      rw [hseq] at hth
      exact absurd hth (by decide)

/-- Claim C8: threshold monotonicity.  For thresholds t1 ≤ t2 (genuine
numbers: positive denominators), whenever `find_best_match` returns an
accepted match at the higher threshold t2, it returns the very same match
with the very same score at the lower threshold t1; in particular the count
of accepted matches can only shrink as the threshold is raised. -/
theorem claim_C8_threshold_mono (target : Cell) (cands : List Cell) (t1 t2 : Frac)
    (_hd1 : 0 < t1.den) (hd2 : 0 < t2.den) (h12 : t1 ≤ t2) (m : Cell) (s : Frac)
    (h : find_best_match target cands t2 = (some m, s)) :
    find_best_match target cands t1 = (some m, s) := by
  rw [find_best_match] at h ⊢
  by_cases ht : target = .na
  · rw [if_pos ht] at h
    exact absurd h (by simp)
  · rw [if_neg ht] at h ⊢
    by_cases hc : cands.isEmpty
    · rw [if_pos hc] at h
      exact absurd h (by simp)
    · rw [if_neg hc] at h ⊢
      by_cases hinit : t2 ≤ (0:Frac)
      · exact fbmLoop_mono hd2 h12 cands none none 0 0
          (Or.inr ⟨rfl, rfl, hinit, Nat.one_pos⟩) m s h
      · exact fbmLoop_mono hd2 h12 cands none none 0 0
          (Or.inl ⟨rfl, rfl, fr_lt_of_not_le hinit, goodFrac_zero⟩) m s h

/-- Claim C5 (amended): provided the aggregated table is nonempty and the
PID table is present, a missing required column makes `merge_with_pid_fuzzy`
perform no matching and return the aggregated table unchanged, with exactly
one diagnostic naming exactly the missing columns of the first offending
table (the aggregated side is checked first, so missing PID columns are not
named when aggregated columns are also missing); with an empty aggregated
table no diagnostic is emitted at all (see the counterexample). -/
theorem claim_C5_amended (agg pid : DF)
    (h1 : agg.rows ≠ []) (h2 : agg.cols ≠ [])
    (h3 : requiredAggCols.filter (fun c => decide (c ∉ agg.cols)) ≠ [] ∨
      requiredPidCols.filter (fun c => decide (c ∉ pid.cols)) ≠ []) :
    merge_with_pid_fuzzy agg (some pid) =
      (if requiredAggCols.filter (fun c => decide (c ∉ agg.cols)) ≠ [] then
        [Diag.missingAgg (requiredAggCols.filter (fun c => decide (c ∉ agg.cols)))]
      else
        [Diag.missingPid (requiredPidCols.filter (fun c => decide (c ∉ pid.cols)))],
      Except.ok agg) := by
  rw [merge_with_pid_fuzzy]
  rw [if_neg (by simp [List.isEmpty_iff, h1, h2])]
  by_cases hA : requiredAggCols.filter (fun c => decide (c ∉ agg.cols)) ≠ []
  · rw [if_pos hA, if_pos hA]
  · rw [if_neg hA, if_neg hA]
    have hB : requiredPidCols.filter (fun c => decide (c ∉ pid.cols)) ≠ [] := by
      rcases h3 with hx | hx
      · exact absurd hx hA
      · exact hx
    rw [if_pos hB]

/- ### Normalization lemmas for claim C10 -/

theorem mem_dropWhile_of_mem {p : α → Bool} {a : α} :
    ∀ {l : List α}, a ∈ l → p a = false → a ∈ l.dropWhile p := by
  intro l
  induction l with
  | nil => intro ha _; cases ha
  | cons b t ih =>
    intro ha hpa
    rw [List.dropWhile]
    cases hpb : p b with
    | true =>
      rcases List.mem_cons.mp ha with rfl | ha'
      · rw [hpa] at hpb
        cases hpb
      · exact ih ha' hpa
    | false => exact ha

theorem mem_stripWS_of_mem {a : Char} {l : List Char} (ha : a ∈ l)
    (hs : isSpaceChar a = false) : a ∈ stripWS l := by
  rw [stripWS, List.mem_reverse]
  apply mem_dropWhile_of_mem _ hs
  rw [List.mem_reverse]
  exact mem_dropWhile_of_mem ha hs

theorem mem_collapseWS_of_mem {a : Char} :
    ∀ {l : List Char}, a ∈ l → isSpaceChar a = false → a ∈ collapseWS l := by
  intro l
  induction l with
  | nil => intro ha _; cases ha
  | cons c1 cs ih =>
    intro ha hsp
    cases cs with
    | nil =>
      have : a = c1 := List.mem_singleton.mp ha
      subst this
      rw [collapseWS, if_neg (by simp [hsp])]
      exact List.mem_singleton.mpr rfl
    | cons c2 cs' =>
      rw [collapseWS]
      by_cases hb : (isSpaceChar c1 && isSpaceChar c2) = true
      · rw [if_pos hb]
        rcases List.mem_cons.mp ha with rfl | ha'
        · rw [Bool.and_eq_true] at hb
          rw [hb.1] at hsp
          cases hsp
        · exact ih ha' hsp
      · rw [if_neg hb]
        rcases List.mem_cons.mp ha with rfl | ha'
        · rw [if_neg (by simp [hsp])]
          exact List.mem_cons_self _ _
        · exact List.mem_cons_of_mem _ (ih ha' hsp)

theorem collapseWS_space_only {c : Char} :
    ∀ {l : List Char}, c ∈ collapseWS l → isSpaceChar c = true → c = ' ' := by
  intro l
  induction l with
  | nil => intro hc _; cases hc
  | cons c1 cs ih =>
    intro hc hsp
    cases cs with
    | nil =>
      rw [collapseWS] at hc
      by_cases h1 : isSpaceChar c1 = true
      · rw [if_pos h1] at hc
        exact List.mem_singleton.mp hc
      · rw [if_neg h1] at hc
        have := List.mem_singleton.mp hc
        subst this
        rw [hsp] at h1
        exact absurd rfl h1
    | cons c2 cs' =>
      rw [collapseWS] at hc
      by_cases hb : (isSpaceChar c1 && isSpaceChar c2) = true
      · rw [if_pos hb] at hc
        exact ih hc hsp
      · rw [if_neg hb] at hc
        rcases List.mem_cons.mp hc with rfl | hc'
        · by_cases h1 : isSpaceChar c1 = true
          · rw [if_pos h1]
          · rw [if_neg h1]
            rw [if_neg h1] at hsp
            rw [hsp] at h1
            exact absurd rfl h1
        · exact ih hc' hsp

/-- Claim C10 (amended): `preprocess_string` maps a null to the empty
string; every character of its output is a word character (alphanumeric or
underscore) or a space (every surviving whitespace character is a plain
space); and underscores are word characters under `\w`, so — contrary to the
claim — they survive normalization (see the counterexample). -/
theorem claim_C10_amended :
    preprocess_string Cell.na = "" ∧
    (∀ s : String, ∀ c ∈ (preprocess_string (Cell.str s)).toList,
      isWordChar c = true ∨ c = ' ') ∧
    (∀ s : String, '_' ∈ s.toList → '_' ∈ (preprocess_string (Cell.str s)).toList) := by
  refine ⟨rfl, ?_, ?_⟩
  · intro s c hc
    have hc' : c ∈ (collapseWS (stripWS (s.toList.map Char.toLower))).filter
        (fun c => isWordChar c || isSpaceChar c) := hc
    have hpred := List.of_mem_filter hc'
    have hmem := List.mem_of_mem_filter hc'
    rw [Bool.or_eq_true] at hpred
    rcases hpred with hw | hsp
    · exact Or.inl hw
    · exact Or.inr (collapseWS_space_only hmem hsp)
  · intro s hu
    have h1 : '_' ∈ s.toList.map Char.toLower := by
      refine List.mem_map.mpr ⟨'_', hu, ?_⟩
      decide
    have h2 : '_' ∈ stripWS (s.toList.map Char.toLower) :=
      mem_stripWS_of_mem h1 (by decide)
    have h3 : '_' ∈ collapseWS (stripWS (s.toList.map Char.toLower)) :=
      mem_collapseWS_of_mem h2 (by decide)
    have h4 : '_' ∈ (collapseWS (stripWS (s.toList.map Char.toLower))).filter
        (fun c => isWordChar c || isSpaceChar c) :=
      List.mem_filter.mpr ⟨h3, by decide⟩
    exact h4

/- ### Row-multiset preservation (claim C1) -/

theorem aggSubFor_eq_keyFilter {agg : DF} (hkeys : StrKeys agg) (k : Cell × Cell) :
    aggSubFor agg k = agg.rows.filter (fun r => decide (keyOf r = k)) := by
  rw [aggSubFor]
  refine List.filter_congr ?_
  intro r hr
  have hs := hkeys r hr
  have hiff : (cellEq (getCell r "project") k.1 &&
      cellEq (getCell r "shire") k.2) = true ↔ keyOf r = k := by
    rw [Bool.and_eq_true, cellEq_left_str hs.1, cellEq_left_str hs.2, keyOf,
      Prod.ext_iff]
    constructor
    · rintro ⟨hh1, hh2⟩
      exact ⟨hh1.symm, hh2.symm⟩
    · rintro ⟨hh1, hh2⟩
      exact ⟨hh1.symm, hh2.symm⟩
  have hbool : ∀ (b1 b2 : Bool), (b1 = true ↔ b2 = true) → b1 = b2 := by
    intro b1 b2 hh
    cases b1 <;> cases b2 <;> simp_all
  apply hbool
  rw [hiff]
  simp

theorem keyRows_forall2 {pid : DF} {k : Cell × Cell} :
    ∀ {rs : List Row} {frs : List Frame}, List.Forall₂ (RowCase pid k) rs frs →
      List.Forall₂
        (fun r row => row = r ∨ ∃ row0, EnrichedFrom pid k r row0 ∧ row = row0)
        rs ((frs.map Prod.snd).flatten) := by
  intro rs frs h
  induction h with
  | nil => exact List.Forall₂.nil
  | cons hab htail ih =>
    rcases hab with rfl | ⟨row0, henr, rfl⟩
    · exact List.Forall₂.cons (Or.inl rfl) ih
    · exact List.Forall₂.cons (Or.inr ⟨row0, henr, rfl⟩) ih

theorem forall2_map_eq {R : α → β → Prop} {f : α → γ} {g : β → γ} :
    ∀ {l : List α} {l' : List β}, List.Forall₂ R l l' →
      (∀ a b, a ∈ l → R a b → g b = f a) → l'.map g = l.map f := by
  intro l l' h
  induction h with
  | nil => intro _; rfl
  | cons hab htail ih =>
    intro hpt
    rw [List.map_cons, List.map_cons,
      hpt _ _ (List.mem_cons_self _ _) hab,
      ih (fun a b ha hr => hpt a b (List.mem_cons_of_mem _ ha) hr)]

theorem projRow_fillAll {agg : DF} (hres : NoReserved agg) (row : Row) :
    projRow agg.cols (fillAll row) = projRow agg.cols row := by
  rw [projRow, projRow]
  refine List.map_congr_left ?_
  intro c hc
  refine fillAll_other _ ?_ ?_ ?_ <;>
    exact fun heq => hres _ (by decide) (heq ▸ hc)

theorem projRow_enrichRow {agg : DF} (hwf : WFRows agg) (hres : NoReserved agg)
    {r : Row} (hr : r ∈ agg.rows) (pidCols : List String) (mpr : Row) (m : Cell)
    (s : Frac) :
    projRow agg.cols (enrichRow pidCols r mpr m s) = projRow agg.cols r := by
  rw [projRow, projRow]
  refine List.map_congr_left ?_
  intro c hc
  refine getCell_enrichRow_other _ _ _ _ _ ?_ ?_ ?_ ?_ (Or.inl ?_)
  · exact fun heq => hres _ (by decide) (heq ▸ hc)
  · exact fun heq => hres _ (by decide) (heq ▸ hc)
  · exact fun heq => hres _ (by decide) (heq ▸ hc)
  · exact fun heq => hres _ (by decide) (heq ▸ hc)
  · rw [hwf r hr]
    exact hc

theorem frames_rows_proj {agg pid : DF} (hwf : WFRows agg) (hres : NoReserved agg) :
    ∀ {keys : List (Cell × Cell)} {framess : List (List Frame)},
      List.Forall₂ (fun k frs => processKey agg pid k = .ok frs) keys framess →
      ((framess.flatten.map Prod.snd).flatten).map (projRow agg.cols) =
        keys.flatMap (fun k => (aggSubFor agg k).map (projRow agg.cols)) := by
  intro keys framess h
  induction h with
  | nil => rfl
  | cons hk htail ih =>
    rename_i k frs keys' framess'
    rw [List.flatten_cons, List.map_append, List.flatten_append, List.map_append,
      List.flatMap_cons, ih]
    congr 1
    have hkey : ((frs.map Prod.snd).flatten).map (projRow agg.cols) =
        (aggSubFor agg k).map (projRow agg.cols) := by
      rcases processKey_ok hk with ⟨_, rfl⟩ | ⟨_, hf2⟩
      · simp
      · refine forall2_map_eq (keyRows_forall2 hf2) ?_
        intro r row hrmem hcase
        have hragg : r ∈ agg.rows := (mem_aggSubFor hrmem).1
        rcases hcase with rfl | ⟨row0, henr, rfl⟩
        · rfl
        · obtain ⟨m, s, mpr, _, _, _, _, _, rfl⟩ := henr
          exact projRow_enrichRow hwf hres hragg _ _ _ _
    exact hkey

/-- Claim C1 (amended): whenever `merge_with_pid_fuzzy` returns (it raises a
KeyError when not a single row matches — claim C4) and all key cells are
identifier strings as the data model requires, the output has exactly as
many rows as the aggregated input and its rows are exactly the input rows
(on the aggregated columns) as a multiset: reconciliation never drops nor
duplicates a row.  The rows are emitted grouped by first occurrence of each
(project, shire) pair, so input order is preserved only when equal keys are
contiguous; rows with a null project or shire are dropped entirely (see the
counterexample for both order and null-key loss). -/
theorem claim_C1_amended (agg pid out : DF)
    (hwf : WFRows agg) (hres : NoReserved agg) (hkeys : StrKeys agg)
    (hra : HasRequiredAgg agg) (hrp : HasRequiredPid pid)
    (h : (merge_with_pid_fuzzy agg (some pid)).2 = .ok out) :
    out.rows.length = agg.rows.length ∧
    (out.rows.map (projRow agg.cols)).Perm (agg.rows.map (projRow agg.cols)) := by
  suffices hperm : (out.rows.map (projRow agg.cols)).Perm
      (agg.rows.map (projRow agg.cols)) by
    refine ⟨?_, hperm⟩
    have := hperm.length_eq
    simpa using this
  rcases merge_some_ok_cases hra hrp h with ⟨hnil, rfl⟩ | ⟨framess, hfa, hflat, hfc⟩
  · exact List.Perm.refl _
  · obtain ⟨hcols, hrows, _⟩ := fillAndCount_ok hfc
    rw [hrows]
    have hfill : ((((framess.flatten.map Prod.snd).flatten).map fillAll).map
        (projRow agg.cols)) =
        (((framess.flatten.map Prod.snd).flatten).map (projRow agg.cols)) := by
      rw [List.map_map]
      refine List.map_congr_left ?_
      intro row _
      exact projRow_fillAll hres row
    rw [hfill, frames_rows_proj hwf hres hfa]
    have hsub : (firstDedup (agg.rows.map keyOf)).flatMap
        (fun k => (aggSubFor agg k).map (projRow agg.cols)) =
        ((firstDedup (agg.rows.map keyOf)).flatMap
          (fun k => agg.rows.filter (fun r => decide (keyOf r = k)))).map
          (projRow agg.cols) := by
      rw [List.map_flatMap]
      exact flatMap_congr_mem
        (fun k _ => by rw [aggSubFor_eq_keyFilter hkeys k])
    rw [hsub]
    exact (perm_partition keyOf agg.rows).map (projRow agg.cols)

/- ### Column tracking (claim C9) -/

theorem foldl_pidColStep_id (mpr : Row) :
    ∀ (cols : List String) (row : Row),
      (∀ c ∈ cols, c ∈ rowKeys row ∨ c = "project" ∨ c = "shire") →
      cols.foldl (pidColStep mpr) row = row := by
  intro cols
  induction cols with
  | nil => intro row _; rfl
  | cons c cs ih =>
    intro row hall
    rw [List.foldl_cons, pidColStep, if_pos (hall c (List.mem_cons_self _ _))]
    exact ih row (fun c' hc' => hall c' (List.mem_cons_of_mem _ hc'))

theorem rowKeys_enrichRow {A : List String} {r : Row} (hkr : rowKeys r = A)
    (hres : ∀ c ∈ reservedCols, c ∉ A) {pidCols : List String}
    (hpc : ∀ c ∈ pidCols, c ∈ requiredPidCols) (mpr : Row) (m : Cell) (s : Frac) :
    rowKeys (enrichRow pidCols r mpr m s) = A ++ reservedCols := by
  have h1 : rowKeys (setCell r "matched_project_description" m) =
      A ++ ["matched_project_description"] := by
    rw [rowKeys_setCell, hkr, if_neg (hres _ (by decide))]
  have h2 : rowKeys (setCell (setCell r "matched_project_description" m)
      "match_score" (.num s)) =
      A ++ ["matched_project_description", "match_score"] := by
    rw [rowKeys_setCell, h1, if_neg ?_]
    · simp
    · intro hmem
      rcases List.mem_append.mp hmem with hA | hx
      · exact hres _ (by decide) hA
      · exact absurd hx (by decide)
  have h3 : rowKeys (setCell (setCell (setCell r "matched_project_description" m)
      "match_score" (.num s)) "pid_ohl_nr" (getCell mpr "pid_ohl_nr")) =
      A ++ ["matched_project_description", "match_score", "pid_ohl_nr"] := by
    rw [rowKeys_setCell, h2, if_neg ?_]
    · simp
    · intro hmem
      rcases List.mem_append.mp hmem with hA | hx
      · exact hres _ (by decide) hA
      · exact absurd hx (by decide)
  have h4 : rowKeys (setCell (setCell (setCell (setCell r
      "matched_project_description" m) "match_score" (.num s))
      "pid_ohl_nr" (getCell mpr "pid_ohl_nr")) "project_description" m) =
      A ++ reservedCols := by
    rw [rowKeys_setCell, h3, if_neg ?_]
    · simp [reservedCols]
    · intro hmem
      rcases List.mem_append.mp hmem with hA | hx
      · exact hres _ (by decide) hA
      · exact absurd hx (by decide)
  rw [enrichRow, foldl_pidColStep_id]
  · exact h4
  · intro c hc
    have hmem := hpc c hc
    have : c = "project" ∨ c = "shire" ∨ c = "project_description" ∨
        c = "pid_ohl_nr" := by
      simpa [requiredPidCols] using hmem
    rcases this with rfl | rfl | rfl | rfl
    · exact Or.inr (Or.inl rfl)
    · exact Or.inr (Or.inr rfl)
    · refine Or.inl ?_
      rw [h4]
      exact List.mem_append.mpr (Or.inr (by decide))
    · refine Or.inl ?_
      rw [h4]
      exact List.mem_append.mpr (Or.inr (by decide))

theorem concatColsAux {A R : List String} (hdisj : ∀ c ∈ R, c ∉ A) :
    ∀ (frames : List Frame) (acc : List String),
      (∀ fr ∈ frames, fr.1 = A ∨ fr.1 = A ++ R) →
      (acc = A ∨ acc = A ++ R) →
      (frames.foldl (fun acc f => acc ++ f.1.filter (fun c => decide (c ∉ acc))) acc = A ∨
        frames.foldl (fun acc f => acc ++ f.1.filter (fun c => decide (c ∉ acc))) acc =
          A ++ R) := by
  intro frames
  induction frames with
  | nil => intro acc _ hacc; exact hacc
  | cons fr frames ih =>
    intro acc hall hacc
    rw [List.foldl_cons]
    refine ih _ (fun f hf => hall f (List.mem_cons_of_mem _ hf)) ?_
    rcases hall fr (List.mem_cons_self _ _) with hfr | hfr <;>
      rcases hacc with rfl | rfl <;> rw [hfr]
    · left
      rw [List.filter_eq_nil_iff.mpr ?_, List.append_nil]
      intro c hcA
      simp [hcA]
    · right
      rw [List.filter_eq_nil_iff.mpr ?_, List.append_nil]
      intro c hcA
      simp [List.mem_append, hcA]
    · right
      rw [List.filter_append, List.filter_eq_nil_iff.mpr ?_, List.nil_append,
        List.filter_eq_self.mpr ?_]
      · intro c hcR
        simp [hdisj c hcR]
      · intro c hcA
        simp [hcA]
    · right
      rw [List.filter_eq_nil_iff.mpr ?_, List.append_nil]
      intro c hc
      simp [hc]

theorem concatCols_cases {A R : List String} (hdisj : ∀ c ∈ R, c ∉ A)
    {frames : List Frame} (hne : frames ≠ [])
    (hall : ∀ fr ∈ frames, fr.1 = A ∨ fr.1 = A ++ R) :
    concatCols frames = A ∨ concatCols frames = A ++ R := by
  cases frames with
  | nil => exact absurd rfl hne
  | cons fr rest =>
    rw [concatCols, List.foldl_cons]
    refine concatColsAux hdisj rest _ (fun f hf => hall f (List.mem_cons_of_mem _ hf)) ?_
    have hacc : (([] : List String) ++ fr.1.filter
        (fun c => decide (c ∉ ([] : List String)))) = fr.1 := by
      rw [List.nil_append, List.filter_eq_self.mpr ?_]
      intro c _
      simp
    rw [hacc]
    exact hall fr (List.mem_cons_self _ _)

/-- Claim C9 (amended): on a nonempty well-formed input whose reference
table carries exactly the required columns, a successful merge returns the
aggregated columns plus FOUR appended columns — matched description, match
score, reference id, and `project_description` (the claim counts only
three; see the counterexample) — and every output row agrees with an
aggregated input row on every aggregated column: original values, including
any extra business columns, pass through unmodified. -/
theorem claim_C9_amended (agg pid out : DF)
    (hwf : WFRows agg) (hres : NoReserved agg) (hkeys : StrKeys agg)
    (hra : HasRequiredAgg agg) (hrp : HasRequiredPid pid) (hpe : PidColsOnly pid)
    (hne : agg.rows ≠ [])
    (h : (merge_with_pid_fuzzy agg (some pid)).2 = .ok out) :
    out.cols = agg.cols ++ reservedCols ∧
    ∀ row ∈ out.rows, ∃ r ∈ agg.rows, ∀ c ∈ agg.cols, getCell row c = getCell r c := by
  rcases merge_some_ok_cases hra hrp h with ⟨hnil, rfl⟩ | ⟨framess, hfa, hflat, hfc⟩
  · exact absurd hnil hne
  · obtain ⟨hcols, hrows, hmpdmem, _, _⟩ := fillAndCount_ok hfc
    constructor
    · have hall : ∀ fr ∈ framess.flatten,
          fr.1 = agg.cols ∨ fr.1 = agg.cols ++ reservedCols := by
        intro fr hfr
        obtain ⟨frs, hfrs, hfr'⟩ := List.mem_flatten.mp hfr
        obtain ⟨k, hk, hpk⟩ := forall2_mem_right hfa frs hfrs
        rcases processKey_ok hpk with ⟨_, rfl⟩ | ⟨_, hf2⟩
        · rcases List.mem_cons.mp hfr' with rfl | hx
          · exact Or.inl rfl
          · exact absurd hx (List.not_mem_nil _)
        · obtain ⟨r, hr, hrc⟩ := forall2_mem_right hf2 fr hfr'
          have hragg : r ∈ agg.rows := (mem_aggSubFor hr).1
          rcases hrc with rfl | ⟨row0, henr, rfl⟩
          · exact Or.inl (hwf r hragg)
          · obtain ⟨m, s, mpr, _, _, _, _, _, rfl⟩ := henr
            exact Or.inr (rowKeys_enrichRow (hwf r hragg) hres hpe mpr m s)
      rcases concatCols_cases hres hflat hall with hA | hAR
      · exfalso
        rw [hA] at hmpdmem
        exact hres "matched_project_description" (by decide) hmpdmem
      · rw [hcols, hAR]
    · intro row hrow
      obtain ⟨k, hk, r, hr, hcase⟩ := merge_ok_row_origin hra hrp h row hrow
      refine ⟨r, (mem_aggSubFor hr).1, ?_⟩
      intro c hc
      rcases hcase with rfl | ⟨row0, henr, rfl⟩
      · refine fillAll_other _ ?_ ?_ ?_ <;>
          exact fun heq => hres _ (by decide) (heq ▸ hc)
      · obtain ⟨m, s, mpr, _, _, _, _, _, rfl⟩ := henr
        rw [fillAll_other _ ?_ ?_ ?_]
        · refine getCell_enrichRow_other _ _ _ _ _ ?_ ?_ ?_ ?_ (Or.inl ?_)
          · exact fun heq => hres _ (by decide) (heq ▸ hc)
          · exact fun heq => hres _ (by decide) (heq ▸ hc)
          · exact fun heq => hres _ (by decide) (heq ▸ hc)
          · exact fun heq => hres _ (by decide) (heq ▸ hc)
          · rw [hwf r (mem_aggSubFor hr).1]
            exact hc
        · exact fun heq => hres _ (by decide) (heq ▸ hc)
        · exact fun heq => hres _ (by decide) (heq ▸ hc)
        · exact fun heq => hres _ (by decide) (heq ▸ hc)

/- ### Claim C4: the degraded path raises instead of returning -/

/-- Claim C4 states the spec's intent, and the code violates it: on a pair
of tables that pass the required-column check but in which not a single row
attains an accepted match, no output slice carries the enrichment columns,
so the final `fillna` on `matched_project_description` raises a KeyError —
the whole reconciliation aborts instead of returning sentinel-filled rows. -/
theorem claim_C4_code_bug :
    merge_with_pid_fuzzy aggC4 (some pidC4) =
      ([], Except.error "KeyError: matched_project_description") := rfl

/- ### Counterexamples to the claims as stated -/

/-- Counterexample to claim C1 as stated: a four-row aggregated input whose
second row has a null project, with its (P, S) rows interleaved, yields a
three-row output — the null-key row is dropped — and the surviving rows are
reordered by key group. -/
theorem claim_C1_counterexample :
    aggC1.rows.length = 4 ∧
    (merge_with_pid_fuzzy aggC1 (some pidC1)).2.map (fun out => out.rows.length) =
      .ok 3 ∧
    aggC1.rows.map (fun r => getCell r "segmentdesc") =
      [.str "ab", .str "nn", .str "zz", .str "cd"] ∧
    (merge_with_pid_fuzzy aggC1 (some pidC1)).2.map
      (fun out => out.rows.map (fun r => getCell r "segmentdesc")) =
      .ok [.str "ab", .str "cd", .str "zz"] := ⟨rfl, rfl, rfl, rfl⟩

/-- Counterexample to claim C2 as stated: a reference row with a null
`pid_ohl_nr` is accepted with score 400/4 = 100 ≥ 75, yet the output row
carries the "Not Available" sentinel id — the claimed biconditional fails. -/
theorem claim_C2_counterexample :
    (75 : Frac) ≤ ⟨400, 4⟩ ∧
    (merge_with_pid_fuzzy aggC2 (some pidC2)).2.map
      (fun out => out.rows.map (fun r =>
        (getCell r "match_score", getCell r "pid_ohl_nr"))) =
      .ok [(Cell.num ⟨400, 4⟩, Cell.str "Not Available")] := ⟨by decide, rfl⟩

/-- Counterexample to claim C5 as stated: an empty aggregated table missing
required columns (`shire`, `segmentdesc`) is returned unchanged with NO
diagnostic at all — the empty-input early return precedes the column check. -/
theorem claim_C5_counterexample :
    requiredAggCols.filter (fun c => decide (c ∉ aggC5.cols)) ≠ [] ∧
    merge_with_pid_fuzzy aggC5 (some pidC2) = ([], .ok aggC5) := ⟨by decide, rfl⟩

/-- Counterexample to claim C6 as stated: the best similarity actually
computed over the row's candidate set is 200/3 (≈ 66.7, sub-threshold,
nonzero — as `find_best_match` at threshold 0 shows), yet the output row
carries score 0, not the computed best score. -/
theorem claim_C6_counterexample :
    find_best_match (Cell.str "ab") (candsFor pidC6 (Cell.str "P", Cell.str "S")) 0 =
      (some (Cell.str "ba"), ⟨200, 3⟩) ∧
    (0 : Frac) < ⟨200, 3⟩ ∧ (⟨200, 3⟩ : Frac) < 75 ∧
    (merge_with_pid_fuzzy aggC6 (some pidC6)).2.map
      (fun out => out.rows.map (fun r => getCell r "match_score")) =
      .ok [Cell.num 0, Cell.num ⟨400, 4⟩] := ⟨rfl, by decide, by decide, rfl⟩

/-- Counterexample to claim C7 as stated: an aggregated row whose
description is the empty string is not left as the sentinel — a reference
description that normalizes to the empty string ("!!") matches it at score
100 and its id is copied. -/
theorem claim_C7_counterexample :
    (merge_with_pid_fuzzy aggC7 (some pidC7)).2.map
      (fun out => out.rows.map (fun r =>
        (getCell r "segmentdesc", getCell r "pid_ohl_nr", getCell r "match_score"))) =
      .ok [(Cell.str "", Cell.str "ID", Cell.num 100)] := rfl

/-- Counterexample to claim C9 as stated: the output carries FOUR appended
columns, not three — `project_description` is also appended (and filled from
the matched reference row). -/
theorem claim_C9_counterexample :
    (merge_with_pid_fuzzy aggC2 (some pidC2)).2.map (fun out => out.cols) =
      .ok ["project", "shire", "segmentdesc", "matched_project_description",
        "match_score", "pid_ohl_nr", "project_description"] := rfl

/-- Counterexample to claim C10 as stated: the underscore is neither
alphanumeric nor whitespace, yet `preprocess_string` keeps it (the source
strips `[^\w\s]`, and `\w` includes the underscore). -/
theorem claim_C10_counterexample :
    preprocess_string (Cell.str "a_b") = "a_b" ∧
    ('_'.isAlphanum || '_'.isWhitespace) = false := ⟨rfl, by decide⟩

/- ### Witnesses: the claim theorems applied at concrete inputs -/

/-- Witness for claim C1 on concrete tables. -/
theorem claim_C1_witness :
    outW.rows.length = aggW.rows.length ∧
    (outW.rows.map (projRow aggW.cols)).Perm (aggW.rows.map (projRow aggW.cols)) :=
  claim_C1_amended aggW pidW outW (by decide) (by decide) (by decide) (by decide)
    (by decide) rfl

/-- Witness for claim C2 on concrete tables, at the single output row. -/
theorem claim_C2_witness :
    (∃ q, getCell rowW "match_score" = Cell.num q ∧ (75 : Frac) ≤ q) ∨
    (getCell rowW "match_score" = Cell.num 0 ∧
      getCell rowW "pid_ohl_nr" = Cell.str "Not Available") :=
  claim_C2_amended aggW pidW outW (by decide) (by decide) (by decide) (by decide) rfl
    rowW (by decide)

/-- Witness for claim C3 on concrete tables, at the single output row. -/
theorem claim_C3_witness :
    (getCell rowW "pid_ohl_nr" ≠ Cell.str "Not Available" →
      ∃ pr ∈ pidW.rows,
        getCell pr "project" = getCell rowW "project" ∧
        getCell pr "shire" = getCell rowW "shire" ∧
        getCell pr "pid_ohl_nr" = getCell rowW "pid_ohl_nr" ∧
        cellEq (getCell pr "project_description")
          (getCell rowW "matched_project_description") = true) ∧
    ((∀ pr ∈ pidW.rows,
        ¬(cellEq (getCell pr "project") (getCell rowW "project") = true ∧
          cellEq (getCell pr "shire") (getCell rowW "shire") = true)) →
      getCell rowW "pid_ohl_nr" = Cell.str "Not Available" ∧
      getCell rowW "match_score" = Cell.num 0) :=
  claim_C3 aggW pidW outW (by decide) (by decide) (by decide) (by decide)
    (by decide) rfl rowW (by decide)

/-- Witness for claim C5 on concrete tables. -/
theorem claim_C5_witness :
    merge_with_pid_fuzzy aggC5W (some pidW) =
      (if requiredAggCols.filter (fun c => decide (c ∉ aggC5W.cols)) ≠ [] then
        [Diag.missingAgg (requiredAggCols.filter (fun c => decide (c ∉ aggC5W.cols)))]
      else
        [Diag.missingPid (requiredPidCols.filter (fun c => decide (c ∉ pidW.cols)))],
      Except.ok aggC5W) :=
  claim_C5_amended aggC5W pidW (by decide) (by decide) (Or.inl (by decide))

/-- Witness for claim C6 on concrete tables, at the single output row. -/
theorem claim_C6_witness :
    rowW ∈ outW.rows ∧
    ¬ ∃ q, getCell rowW "match_score" = Cell.num q ∧ (0 : Frac) < q ∧ q < 75 :=
  ⟨by decide,
    claim_C6_amended aggW pidW outW (by decide) (by decide) (by decide) (by decide)
      rfl rowW (by decide)⟩

/-- Witness for claim C7 on concrete tables, at the single output row. -/
theorem claim_C7_witness :
    (getCell rowW "segmentdesc" = Cell.na →
      getCell rowW "pid_ohl_nr" = Cell.str "Not Available" ∧
      getCell rowW "match_score" = Cell.num 0) ∧
    (getCell rowW "segmentdesc" = Cell.str "" ∧
      (∀ pr ∈ pidW.rows,
        cellEq (getCell pr "project") (getCell rowW "project") = true ∧
        cellEq (getCell pr "shire") (getCell rowW "shire") = true →
        preprocess_string (getCell pr "project_description") ≠ "") →
      getCell rowW "pid_ohl_nr" = Cell.str "Not Available" ∧
      getCell rowW "match_score" = Cell.num 0) :=
  claim_C7_amended aggW pidW outW (by decide) (by decide) (by decide) (by decide)
    (by decide) rfl rowW (by decide)

/-- Witness for claim C8 on a concrete target, candidate list and threshold
pair 10 ≤ 50. -/
theorem claim_C8_witness :
    find_best_match (Cell.str "ab") [Cell.str "ba"] 10 =
      (some (Cell.str "ba"), ⟨200, 3⟩) :=
  claim_C8_threshold_mono (Cell.str "ab") [Cell.str "ba"] 10 50 (by decide)
    (by decide) (by decide) (Cell.str "ba") ⟨200, 3⟩ rfl

/-- Witness for claim C9 on concrete tables. -/
theorem claim_C9_witness :
    outW.cols = aggW.cols ++ reservedCols ∧
    ∀ row ∈ outW.rows, ∃ r ∈ aggW.rows, ∀ c ∈ aggW.cols, getCell row c = getCell r c :=
  claim_C9_amended aggW pidW outW (by decide) (by decide) (by decide) (by decide)
    (by decide) (by decide) (by decide) rfl

end Gaeltec
